import Mathlib

/-!
Verification of the elsa MPC runtime core: a shallow embedding of the
crypto-primitives, block, and bridge crates, together with theorems about
the COT layer, B2A/A2S conversions, square-correlation verification, the
seeded block RNG, the transport rendezvous maps and the message-id
generator.

Conventions:
* a `Block` (128-bit XMM register) is a `Nat`, with `< 2^128` stated where
  it matters;
* ring elements of width `W` (the `UInt` trait) are `Nat`s, with wrapping
  arithmetic written as explicit `% 2^W`;
* hardware and PRG primitives (AES-NI rounds, ChaCha12/StdRng draws) are
  abstract function parameters: every theorem holds for all of them.
-/

set_option maxHeartbeats 1000000

namespace Elsa

/-- Carry-less product of the low 64 bits of `a` with `b`, folded over the 64
bit positions of `a`: models one `PCLMULQDQ` invocation
(`safe_arch::mul_i64_carryless_m128i`), whose result is the XOR over all
`i < 64` with bit `i` of `a` set of `b <<< i`.  The fold bound is kept as a
parameter `n` (the instruction has `n = 64`) so that proofs can recurse. -/
def clMulAux (a b n : Nat) : Nat :=
  (List.range n).foldl (fun acc i => if a.testBit i then acc ^^^ (b <<< i) else acc) 0

/-- The `PCLMULQDQ` carry-less 64x64 -> 128 bit multiply. -/
def clMul64 (a b : Nat) : Nat := clMulAux a b 64

/-- Low 64-bit lane of an XMM register. -/
def lo64 (x : Nat) : Nat := x % 2 ^ 64

/-- High 64-bit lane of an XMM register. -/
def hi64 (x : Nat) : Nat := (x >>> 64) % 2 ^ 64

/-- `byte_shl_imm_u128_m128i::<8>`: shift a 128-bit register left by 8 bytes. -/
def m128shl8 (x : Nat) : Nat := (x <<< 64) % 2 ^ 128

/-- `byte_shr_imm_u128_m128i::<8>`: shift a 128-bit register right by 8 bytes. -/
def m128shr8 (x : Nat) : Nat := (x >>> 64) % 2 ^ 128

/-- `Block::mul_gf_no_reduction`: multiplication of two blocks in GF(2^128)
without modular reduction; the result is an element of GF(2^256) represented
as the pair (low block, high block).  Straight transcription of the four
carry-less products and the byte shifts in `block/src/x86/gf.rs`. -/
def mul_gf_no_reduction (a b : Nat) : Nat × Nat :=
  let tmp3 := clMul64 (lo64 a) (lo64 b)
  let tmp4 := clMul64 (lo64 a) (hi64 b)
  let tmp5 := clMul64 (hi64 a) (lo64 b)
  let tmp6 := clMul64 (hi64 a) (hi64 b)
  let tmp4b := tmp4 ^^^ tmp5
  let tmp5b := m128shl8 tmp4b
  let tmp4c := m128shr8 tmp4b
  (tmp3 ^^^ tmp5b, tmp6 ^^^ tmp4c)

/-- `GF2_256::add_gf`: componentwise XOR of the two 128-bit halves. -/
def add_gf256 (x y : Nat × Nat) : Nat × Nat := (x.1 ^^^ y.1, x.2 ^^^ y.2)

/-- Closed form of `mul_gf_no_reduction` with the temporaries expanded. -/
theorem mul_gf_eq (a b : Nat) :
    mul_gf_no_reduction a b =
      (clMul64 (lo64 a) (lo64 b) ^^^
        m128shl8 (clMul64 (lo64 a) (hi64 b) ^^^ clMul64 (hi64 a) (lo64 b)),
       clMul64 (hi64 a) (hi64 b) ^^^
        m128shr8 (clMul64 (lo64 a) (hi64 b) ^^^ clMul64 (hi64 a) (lo64 b))) := rfl

/-! ### Bit-level characterization of the carry-less multiply -/

/-- Boolean (parity) spec of bit `k` of `clMulAux a b n`. -/
def clBit (a b k n : Nat) : Bool :=
  (List.range n).foldl
    (fun p i => xor p (a.testBit i && (decide (i ≤ k) && b.testBit (k - i)))) false

theorem clMulAux_succ (a b n : Nat) :
    clMulAux a b (n + 1) =
      if a.testBit n then clMulAux a b n ^^^ (b <<< n) else clMulAux a b n := by
  unfold clMulAux
  rw [List.range_succ, List.foldl_append]
  simp

theorem clBit_succ (a b k n : Nat) :
    clBit a b k (n + 1) =
      xor (clBit a b k n) (a.testBit n && (decide (n ≤ k) && b.testBit (k - n))) := by
  unfold clBit
  rw [List.range_succ, List.foldl_append]
  simp

theorem testBit_clMulAux (a b n k : Nat) :
    (clMulAux a b n).testBit k = clBit a b k n := by
  induction n with
  | zero => simp [clMulAux, clBit]
  | succ n ih =>
    rw [clMulAux_succ, clBit_succ]
    by_cases h : a.testBit n
    · simp [h, Nat.testBit_xor, ih, Nat.testBit_shiftLeft]
    · simp [h, ih]

/-- Interpret a boolean as an element of `ZMod 2`. -/
def boolZ (b : Bool) : ZMod 2 := if b then 1 else 0

theorem boolZ_xor (p q : Bool) : boolZ (xor p q) = boolZ p + boolZ q := by
  cases p <;> cases q <;> decide

theorem boolZ_inj {p q : Bool} (h : boolZ p = boolZ q) : p = q := by
  cases p <;> cases q <;> first | rfl | exact absurd h (by decide)

theorem boolZ_clBit (a b k n : Nat) :
    boolZ (clBit a b k n) =
      ∑ i ∈ Finset.range n,
        (if a.testBit i ∧ i ≤ k ∧ b.testBit (k - i) then (1 : ZMod 2) else 0) := by
  induction n with
  | zero => simp [clBit, boolZ]
  | succ n ih =>
    rw [clBit_succ, boolZ_xor, ih, Finset.sum_range_succ]
    congr 1
    by_cases h1 : a.testBit n <;> by_cases h2 : n ≤ k <;>
      by_cases h3 : b.testBit (k - n) <;> simp [h1, h2, h3, boolZ]

theorem testBit_ge_of_lt {x m : Nat} (hx : x < 2 ^ m) : x.testBit m = false := by
  have : x < 2 ^ m := hx
  exact Nat.testBit_lt_two_pow this

/-- Commutativity of the carry-less multiply on 64-bit operands. -/
theorem clMul64_comm (a b : Nat) (ha : a < 2 ^ 64) (hb : b < 2 ^ 64) :
    clMul64 a b = clMul64 b a := by
  apply Nat.eq_of_testBit_eq
  intro k
  rw [clMul64, clMul64, testBit_clMulAux, testBit_clMulAux]
  apply boolZ_inj
  rw [boolZ_clBit, boolZ_clBit, Finset.sum_boole, Finset.sum_boole]
  congr 1
  apply Finset.card_bij' (fun i _ => k - i) (fun j _ => k - j)
  · intro i hi
    simp only [Finset.mem_filter, Finset.mem_range] at hi ⊢
    obtain ⟨hi64, hai, hik, hbk⟩ := hi
    have hki : k - i < 64 := by
      by_contra hge
      push_neg at hge
      have : b < 2 ^ (k - i) :=
        lt_of_lt_of_le hb (Nat.pow_le_pow_right (by norm_num) hge)
      rw [testBit_ge_of_lt this] at hbk
      exact absurd hbk (by simp)
    refine ⟨hki, hbk, Nat.sub_le k i, ?_⟩
    rwa [Nat.sub_sub_self hik]
  · intro j hj
    simp only [Finset.mem_filter, Finset.mem_range] at hj ⊢
    obtain ⟨hj64, hbj, hjk, hak⟩ := hj
    have hkj : k - j < 64 := by
      by_contra hge
      push_neg at hge
      have : a < 2 ^ (k - j) :=
        lt_of_lt_of_le ha (Nat.pow_le_pow_right (by norm_num) hge)
      rw [testBit_ge_of_lt this] at hak
      exact absurd hak (by simp)
    refine ⟨hkj, hak, Nat.sub_le k j, ?_⟩
    rwa [Nat.sub_sub_self hjk]
  · intro i hi
    simp only [Finset.mem_filter, Finset.mem_range] at hi
    exact Nat.sub_sub_self hi.2.2.1
  · intro j hj
    simp only [Finset.mem_filter, Finset.mem_range] at hj
    exact Nat.sub_sub_self hj.2.2.1

theorem clMulAux_zero_right (a n : Nat) : clMulAux a 0 n = 0 := by
  induction n with
  | zero => simp [clMulAux]
  | succ n ih => rw [clMulAux_succ]; simp [ih]

theorem clMul64_zero_right (a : Nat) : clMul64 a 0 = 0 := clMulAux_zero_right a 64

theorem clMulAux_zero_left (b n : Nat) : clMulAux 0 b n = 0 := by
  induction n with
  | zero => simp [clMulAux]
  | succ n ih => rw [clMulAux_succ]; simp [ih]

theorem clMul64_zero_left (b : Nat) : clMul64 0 b = 0 := clMulAux_zero_left b 64

theorem shiftLeft_xor_distrib (b c i : Nat) :
    (b ^^^ c) <<< i = (b <<< i) ^^^ (c <<< i) := by
  apply Nat.eq_of_testBit_eq
  intro k
  simp only [Nat.testBit_shiftLeft, Nat.testBit_xor]
  by_cases h : i ≤ k <;> simp [h]

/-- Right distributivity of the carry-less multiply over XOR. -/
theorem clMul64_xor_right (a b c : Nat) :
    clMul64 a (b ^^^ c) = clMul64 a b ^^^ clMul64 a c := by
  show clMulAux a (b ^^^ c) 64 = clMulAux a b 64 ^^^ clMulAux a c 64
  induction 64 with
  | zero => simp [clMulAux]
  | succ n ih =>
    rw [clMulAux_succ, clMulAux_succ, clMulAux_succ, ih]
    by_cases h : a.testBit n
    · simp only [h, if_true, shiftLeft_xor_distrib]
      rw [Nat.xor_assoc, Nat.xor_assoc]
      congr 1
      rw [← Nat.xor_assoc, ← Nat.xor_assoc]
      congr 1
      rw [Nat.xor_comm]
    · simp [h]

/-- Multiplying by a single monomial `2^j` (with `j < 64`) is a shift. -/
theorem clMul64_two_pow (j b : Nat) (hj : j < 64) :
    clMul64 (2 ^ j) b = b <<< j := by
  apply Nat.eq_of_testBit_eq
  intro k
  rw [clMul64, testBit_clMulAux]
  apply boolZ_inj
  rw [boolZ_clBit]
  rw [Finset.sum_eq_single j]
  · by_cases h2 : j ≤ k <;>
      by_cases h3 : b.testBit (k - j) <;>
        simp [boolZ, Nat.testBit_two_pow, h2, h3, Nat.testBit_shiftLeft]
  · intro i _ hne
    simp [Nat.testBit_two_pow, Ne.symm hne]
  · intro h
    exact absurd (Finset.mem_range.mpr hj) h

/-! ### Laws of `mul_gf_no_reduction` -/

theorem lo64_xor (b c : Nat) : lo64 (b ^^^ c) = lo64 b ^^^ lo64 c := by
  apply Nat.eq_of_testBit_eq
  intro k
  simp only [lo64, Nat.testBit_mod_two_pow, Nat.testBit_xor]
  by_cases h : k < 64 <;> simp [h]

theorem hi64_xor (b c : Nat) : hi64 (b ^^^ c) = hi64 b ^^^ hi64 c := by
  apply Nat.eq_of_testBit_eq
  intro k
  simp only [hi64, Nat.testBit_mod_two_pow, Nat.testBit_shiftRight, Nat.testBit_xor]
  by_cases h : k < 64 <;> simp [h]

theorem m128shl8_xor (x y : Nat) : m128shl8 (x ^^^ y) = m128shl8 x ^^^ m128shl8 y := by
  apply Nat.eq_of_testBit_eq
  intro k
  simp only [m128shl8, Nat.testBit_mod_two_pow, Nat.testBit_shiftLeft, Nat.testBit_xor]
  by_cases h : k < 128 <;> by_cases h2 : 64 ≤ k <;> simp [h, h2]

theorem m128shr8_xor (x y : Nat) : m128shr8 (x ^^^ y) = m128shr8 x ^^^ m128shr8 y := by
  apply Nat.eq_of_testBit_eq
  intro k
  simp only [m128shr8, Nat.testBit_mod_two_pow, Nat.testBit_shiftRight, Nat.testBit_xor]
  by_cases h : k < 128 <;> simp [h]

theorem lo64_zero : lo64 0 = 0 := rfl

theorem hi64_zero : hi64 0 = 0 := rfl

theorem lo64_one : lo64 1 = 1 := by
  simp [lo64, Nat.mod_eq_of_lt]

theorem hi64_one : hi64 1 = 0 := by
  simp [hi64]

theorem clMul64_one_right (x : Nat) (hx : x < 2 ^ 64) : clMul64 x 1 = x := by
  have h := clMul64_comm x 1 hx (by norm_num)
  rw [h]
  have h0 : (1 : Nat) = 2 ^ 0 := rfl
  rw [h0, clMul64_two_pow 0 x (by norm_num)]
  simp

/-- Reassemble a 128-bit value from its two 64-bit lanes. -/
theorem lo_xor_hi_shl (a : Nat) (ha : a < 2 ^ 128) :
    lo64 a ^^^ (hi64 a <<< 64) = a := by
  apply Nat.eq_of_testBit_eq
  intro k
  simp only [lo64, hi64, Nat.testBit_xor, Nat.testBit_mod_two_pow,
    Nat.testBit_shiftLeft, Nat.testBit_shiftRight]
  by_cases h1 : k < 64
  · have h2 : ¬ 64 ≤ k := by omega
    simp [h1, h2]
  · have h2 : 64 ≤ k := by omega
    by_cases h3 : k < 128
    · have h4 : k - 64 < 64 := by omega
      have h5 : 64 + (k - 64) = k := by omega
      simp [h1, h2, h3, h4, h5]
    · have hbk : a.testBit k = false := by
        apply testBit_ge_of_lt
        calc a < 2 ^ 128 := ha
        _ ≤ 2 ^ k := Nat.pow_le_pow_right (by norm_num) (by omega)
      by_cases h4 : k - 64 < 64
      · simp [h1, h2, h3, h4, hbk]
      · simp [h1, h2, h3, h4, hbk]

theorem hi64_lt (x : Nat) : hi64 x < 2 ^ 64 := Nat.mod_lt _ (by norm_num)

theorem lo64_lt (x : Nat) : lo64 x < 2 ^ 64 := Nat.mod_lt _ (by norm_num)

theorem mul_gf_comm (a b : Nat) :
    mul_gf_no_reduction a b = mul_gf_no_reduction b a := by
  rw [mul_gf_eq, mul_gf_eq,
      clMul64_comm (lo64 a) (lo64 b) (lo64_lt a) (lo64_lt b),
      clMul64_comm (hi64 a) (hi64 b) (hi64_lt a) (hi64_lt b),
      clMul64_comm (lo64 a) (hi64 b) (lo64_lt a) (hi64_lt b),
      clMul64_comm (hi64 a) (lo64 b) (hi64_lt a) (lo64_lt b),
      Nat.xor_comm (clMul64 (hi64 b) (lo64 a)) (clMul64 (lo64 b) (hi64 a))]

theorem mul_gf_zero_right (a : Nat) : mul_gf_no_reduction a 0 = (0, 0) := by
  rw [mul_gf_eq, lo64_zero, hi64_zero, clMul64_zero_right, clMul64_zero_right]
  simp [m128shl8, m128shr8]

theorem mul_gf_one_right (a : Nat) (ha : a < 2 ^ 128) :
    mul_gf_no_reduction a 1 = (a, 0) := by
  rw [mul_gf_eq, lo64_one, hi64_one, clMul64_zero_right,
      clMul64_one_right (lo64 a) (lo64_lt a),
      clMul64_one_right (hi64 a) (hi64_lt a)]
  have h2 : m128shl8 (hi64 a) = hi64 a <<< 64 := by
    apply Nat.mod_eq_of_lt
    have := hi64_lt a
    calc hi64 a <<< 64 = hi64 a * 2 ^ 64 := Nat.shiftLeft_eq _ _
    _ < 2 ^ 64 * 2 ^ 64 := by
        exact Nat.mul_lt_mul_of_lt_of_le this (le_refl _) (by norm_num)
    _ = 2 ^ 128 := by norm_num
  have h3 : m128shr8 (hi64 a) = 0 := by
    simp only [m128shr8]
    rw [Nat.shiftRight_eq_div_pow]
    rw [Nat.div_eq_of_lt (hi64_lt a)]
    rfl
  rw [Nat.zero_xor, h2, h3]
  simp only [Nat.xor_zero]
  rw [lo_xor_hi_shl a ha, clMul64_zero_right]

theorem xor4_swap (x1 x2 y1 y2 : Nat) :
    (x1 ^^^ x2) ^^^ (y1 ^^^ y2) = (x1 ^^^ y1) ^^^ (x2 ^^^ y2) := by
  rw [Nat.xor_assoc, Nat.xor_assoc]
  congr 1
  rw [← Nat.xor_assoc, ← Nat.xor_assoc, Nat.xor_comm x2 y1]

theorem add_gf256_mk (x1 y1 x2 y2 : Nat) :
    add_gf256 (x1, y1) (x2, y2) = (x1 ^^^ x2, y1 ^^^ y2) := rfl

theorem mul_gf_xor_right (a b c : Nat) :
    mul_gf_no_reduction a (b ^^^ c) =
      add_gf256 (mul_gf_no_reduction a b) (mul_gf_no_reduction a c) := by
  rw [mul_gf_eq, mul_gf_eq, mul_gf_eq, add_gf256_mk, lo64_xor, hi64_xor,
      clMul64_xor_right, clMul64_xor_right, clMul64_xor_right, clMul64_xor_right,
      xor4_swap (clMul64 (lo64 a) (hi64 b)) (clMul64 (lo64 a) (hi64 c))
        (clMul64 (hi64 a) (lo64 b)) (clMul64 (hi64 a) (lo64 c)),
      m128shl8_xor, m128shr8_xor]
  exact Prod.ext (xor4_swap _ _ _ _) (xor4_swap _ _ _ _)

theorem mul_gf_xor_left (a b c : Nat) :
    mul_gf_no_reduction (a ^^^ b) c =
      add_gf256 (mul_gf_no_reduction a c) (mul_gf_no_reduction b c) := by
  rw [mul_gf_comm, mul_gf_xor_right, mul_gf_comm c a, mul_gf_comm c b]

theorem mul_gf_zero_left (b : Nat) : mul_gf_no_reduction 0 b = (0, 0) := by
  rw [mul_gf_comm, mul_gf_zero_right]

/-- Multiplying a monomial block `2^j` (`j < 128`) by a block `b` shifts `b`
left by `j` across the 256-bit result. -/
theorem mul_gf_two_pow_left (j b : Nat) (hj : j < 128) (hb : b < 2 ^ 128) :
    mul_gf_no_reduction (2 ^ j) b = ((b <<< j) % 2 ^ 128, (b <<< j) >>> 128) := by
  rw [mul_gf_eq]
  have hbbit : ∀ m, 128 ≤ m → b.testBit m = false := by
    intro m hm
    apply testBit_ge_of_lt
    exact lt_of_lt_of_le hb (Nat.pow_le_pow_right (by norm_num) hm)
  by_cases hj64 : j < 64
  · have hlo : lo64 (2 ^ j) = 2 ^ j := by
      apply Nat.mod_eq_of_lt
      exact Nat.pow_lt_pow_right (by norm_num) hj64
    have hhi : hi64 (2 ^ j) = 0 := by
      simp only [hi64]
      rw [Nat.shiftRight_eq_div_pow,
        Nat.div_eq_of_lt (Nat.pow_lt_pow_right (by norm_num) hj64)]
      rfl
    rw [hlo, hhi, clMul64_zero_left, clMul64_zero_left,
      clMul64_two_pow j (lo64 b) hj64, clMul64_two_pow j (hi64 b) hj64]
    simp only [Nat.xor_zero, Nat.zero_xor]
    refine Prod.ext ?_ ?_
    · apply Nat.eq_of_testBit_eq
      intro k
      simp only [m128shl8, lo64, hi64, Nat.testBit_xor, Nat.testBit_mod_two_pow,
        Nat.testBit_shiftLeft, Nat.testBit_shiftRight]
      by_cases hjk : j ≤ k
      · by_cases hk : k < 128
        · by_cases hkj : k - j < 64
          · by_cases h64 : 64 ≤ k
            · have h2 : ¬ j ≤ k - 64 := by omega
              simp [hjk, hk, hkj, h64, h2]
            · simp [hjk, hk, hkj, h64]
          · have h64 : 64 ≤ k := by omega
            have h2 : j ≤ k - 64 := by omega
            have h3 : k - 64 - j < 64 := by omega
            have h4 : 64 + (k - 64 - j) = k - j := by omega
            simp [hjk, hk, hkj, h64, h2, h3, h4]
        · have hkj : ¬ (k - j < 64) := by omega
          simp [hjk, hk, hkj]
      · by_cases h64 : 64 ≤ k
        · have h2 : ¬ j ≤ k - 64 := by omega
          simp [hjk, h64, h2]
        · simp [hjk, h64]
    · apply Nat.eq_of_testBit_eq
      intro k
      simp only [m128shr8, lo64, hi64, Nat.testBit_xor, Nat.testBit_mod_two_pow,
        Nat.testBit_shiftLeft, Nat.testBit_shiftRight]
      have hj128 : j ≤ 128 + k := by omega
      by_cases hkj : k < j
      · have h1 : j ≤ 64 + k := by omega
        have h2 : 64 + k - j < 64 := by omega
        have h3 : 64 + (64 + k - j) = 128 + k - j := by omega
        have h4 : k < 128 := by omega
        simp [hkj, h1, h2, h3, h4, hj128]
      · have h5 : b.testBit (128 + k - j) = false := hbbit _ (by omega)
        have h1 : j ≤ 64 + k := by omega
        have h2 : ¬ (64 + k - j < 64) := by omega
        by_cases h4 : k < 128 <;> simp [h1, h2, h4, h5, hj128]
  · -- 64 <= j < 128
    have hj2 : j - 64 < 64 := by omega
    have hlo : lo64 (2 ^ j) = 0 := by
      simp only [lo64]
      have hsplit : (2 : Nat) ^ j = 2 ^ 64 * 2 ^ (j - 64) := by
        rw [← pow_add]
        congr 1
        omega
      rw [hsplit, Nat.mul_mod_right]
    have hhi : hi64 (2 ^ j) = 2 ^ (j - 64) := by
      simp only [hi64]
      rw [Nat.shiftRight_eq_div_pow, Nat.pow_div (by omega) (by norm_num)]
      apply Nat.mod_eq_of_lt
      exact Nat.pow_lt_pow_right (by norm_num) hj2
    rw [hlo, hhi, clMul64_zero_left, clMul64_zero_left,
      clMul64_two_pow (j - 64) (lo64 b) hj2, clMul64_two_pow (j - 64) (hi64 b) hj2]
    simp only [Nat.xor_zero, Nat.zero_xor]
    refine Prod.ext ?_ ?_
    · apply Nat.eq_of_testBit_eq
      intro k
      simp only [m128shl8, lo64, hi64, Nat.testBit_mod_two_pow,
        Nat.testBit_shiftLeft, Nat.testBit_shiftRight]
      by_cases hk : k < 128
      · by_cases hjk : j ≤ k
        · have h64 : 64 ≤ k := by omega
          have h2 : j - 64 ≤ k - 64 := by omega
          have h3 : k - 64 - (j - 64) = k - j := by omega
          have h4 : k - j < 64 := by omega
          simp [hk, hjk, h64, h2, h3, h4]
        · by_cases h64 : 64 ≤ k
          · have h2 : ¬ (j - 64 ≤ k - 64) := by omega
            simp [hk, hjk, h64, h2]
          · simp [hk, hjk, h64]
      · simp [hk]
    · apply Nat.eq_of_testBit_eq
      intro k
      simp only [m128shr8, lo64, hi64, Nat.testBit_xor, Nat.testBit_mod_two_pow,
        Nat.testBit_shiftLeft, Nat.testBit_shiftRight]
      have hj128 : j ≤ 128 + k := by omega
      have h0 : j - 64 ≤ 64 + k := by omega
      by_cases hkj : k < j - 64
      · have h1 : ¬ (j - 64 ≤ k) := by omega
        have h2 : 64 + k - (j - 64) < 64 := by omega
        have h3 : 64 + k - (j - 64) = 128 + k - j := by omega
        have h2b : 128 + k - j < 64 := by omega
        have h4 : k < 128 := by omega
        simp [hkj, h0, h1, h2, h2b, h3, h4, hj128]
      · have h1 : j - 64 ≤ k := by omega
        have h2 : ¬ (64 + k - (j - 64) < 64) := by omega
        have h5 : 64 + (k - (j - 64)) = 128 + k - j := by omega
        by_cases h6 : k - (j - 64) < 64
        · by_cases h4 : k < 128 <;> simp [h0, h1, h2, h4, h5, h6, hj128]
        · have h7 : b.testBit (128 + k - j) = false := hbbit _ (by omega)
          by_cases h4 : k < 128 <;> simp [h0, h1, h2, h4, h5, h6, h7, hj128]

/-- A single-bit corruption times a nonzero block is a nonzero GF(2^256)
element. -/
theorem mul_gf_two_pow_ne_zero (j b : Nat) (hj : j < 128) (hb : b < 2 ^ 128)
    (hb0 : b ≠ 0) : mul_gf_no_reduction (2 ^ j) b ≠ (0, 0) := by
  rw [mul_gf_two_pow_left j b hj hb]
  intro h
  have h1 : (b <<< j) % 2 ^ 128 = 0 := congrArg Prod.fst h
  have h2 : (b <<< j) >>> 128 = 0 := congrArg Prod.snd h
  rw [Nat.shiftRight_eq_div_pow] at h2
  have h3 : b <<< j = 2 ^ 128 * (b <<< j / 2 ^ 128) + (b <<< j) % 2 ^ 128 :=
    (Nat.div_add_mod _ _).symm
  rw [h1, h2] at h3
  simp at h3
  rw [Nat.shiftLeft_eq] at h3
  rcases Nat.mul_eq_zero.mp h3 with h4 | h4
  · exact hb0 h4
  · simp at h4

/-- C9: GF(2^128) carry-less multiplication laws: for all Blocks `a`, `b`, `c`
(128-bit values), `mul_gf_no_reduction` is commutative, sends `0` to `(0, 0)`,
sends the block `1` (only the low bit set) to `(a, 0)`, and distributes over
XOR, with equality of `GF2_256` pairs componentwise. -/
theorem c9_mul_gf_laws (a b c : Nat) (ha : a < 2 ^ 128) :
    mul_gf_no_reduction a b = mul_gf_no_reduction b a ∧
    mul_gf_no_reduction a 0 = (0, 0) ∧
    mul_gf_no_reduction a 1 = (a, 0) ∧
    mul_gf_no_reduction a (b ^^^ c) =
      add_gf256 (mul_gf_no_reduction a b) (mul_gf_no_reduction a c) :=
  ⟨mul_gf_comm a b, mul_gf_zero_right a, mul_gf_one_right a ha,
    mul_gf_xor_right a b c⟩

theorem c9_mul_gf_laws_witness :
    mul_gf_no_reduction 3 5 = mul_gf_no_reduction 5 3 ∧
    mul_gf_no_reduction 3 0 = (0, 0) ∧
    mul_gf_no_reduction 3 1 = (3, 0) ∧
    mul_gf_no_reduction 3 (5 ^^^ 7) =
      add_gf256 (mul_gf_no_reduction 3 5) (mul_gf_no_reduction 3 7) :=
  c9_mul_gf_laws 3 5 7 (by norm_num)

/-! ### Seeded block RNG (`block_crypto/rng.rs`) -/

/-- `aes_ecb_encrypt_blocks`: encrypt each block of the slice independently
under the scheduled key; the full ten-round AES permutation for the key is the
abstract function `E`. -/
def aes_ecb_encrypt_blocks (E : Nat → Nat) (blocks : List Nat) : List Nat :=
  blocks.map E

/-- The counter blocks `m128i::from([counter + j, 0])` written into a window of
`k` destination slots by `BlockRng::random_blocks`. -/
def counterWindow (c k : Nat) : List Nat :=
  (List.range k).map (fun j => c + j)

/-- The full-batch loop of `BlockRng::random_blocks`: `nb` batches of
`AES_BATCH_SIZE = 8` blocks, each batch filled with consecutive counters and
then encrypted in ECB mode. -/
def rngBatchLoop (E : Nat → Nat) : Nat → Nat → List Nat
  | _, 0 => []
  | c, nb + 1 =>
      aes_ecb_encrypt_blocks E (counterWindow c 8) ++ rngBatchLoop E (c + 8) nb

/-- `BlockRng::random_blocks`, for a generator whose keyed AES permutation is
`E` and whose counter is `c`, filling a destination of `n` blocks: `n / 8`
full batches followed by the remainder window.  Returns the produced blocks
and the new counter. -/
def random_blocks (E : Nat → Nat) (c n : Nat) : List Nat × Nat :=
  (rngBatchLoop E c (n / 8) ++
    aes_ecb_encrypt_blocks E (counterWindow (c + 8 * (n / 8)) (n % 8)),
   c + n)

theorem rngBatchLoop_eq (E : Nat → Nat) (nb : Nat) :
    ∀ c, rngBatchLoop E c nb = (List.range (8 * nb)).map (fun k => E (c + k)) := by
  induction nb with
  | zero => intro c; simp [rngBatchLoop]
  | succ nb ih =>
    intro c
    have h8 : 8 * (nb + 1) = 8 + 8 * nb := by omega
    rw [rngBatchLoop, ih (c + 8), h8, List.range_add, List.map_append]
    have h1 : aes_ecb_encrypt_blocks E (counterWindow c 8) =
        (List.range 8).map (fun k => E (c + k)) := by
      simp [aes_ecb_encrypt_blocks, counterWindow, List.map_map]
    have h2 : List.map (fun k => E (c + 8 + k)) (List.range (8 * nb)) =
        List.map (fun k => E (c + k)) ((List.range (8 * nb)).map (fun x => 8 + x)) := by
      rw [List.map_map]
      apply List.map_congr_left
      intro x hx
      show E (c + 8 + x) = E (c + (8 + x))
      congr 1
      omega
    rw [h1, h2]

/-- The RNG is a pure counter-mode stream: block `k` of the output is
`E (c + k)` and the counter advances by exactly one per block. -/
theorem random_blocks_stream (E : Nat → Nat) (c n : Nat) :
    random_blocks E c n = ((List.range n).map (fun k => E (c + k)), c + n) := by
  unfold random_blocks
  refine Prod.ext ?_ rfl
  simp only
  rw [rngBatchLoop_eq]
  have hn : n = 8 * (n / 8) + n % 8 := (Nat.div_add_mod n 8).symm
  conv_rhs => rw [hn]
  rw [List.range_add, List.map_append]
  congr 1
  simp only [aes_ecb_encrypt_blocks, counterWindow, List.map_map]
  apply List.map_congr_left
  intro x _
  simp only [Function.comp_apply]
  congr 1
  omega

/-- C8: seeded block RNG split determinism: producing `n1 + n2` blocks in one
`random_blocks` call yields the same block sequence as producing `n1` blocks
and then `n2` blocks on the same generator; equivalently the generator is a
pure counter-mode stream where block `k` of the stream is `AES_S(k, 0)` (the
keyed permutation `E` applied to the counter block) and the counter advances
by exactly one per block produced, independent of the internal batch size of 8
and the remainder path. -/
theorem c8_block_rng_split (E : Nat → Nat) (c n1 n2 : Nat) :
    (random_blocks E c (n1 + n2)).1 =
      (random_blocks E c n1).1 ++
        (random_blocks E (random_blocks E c n1).2 n2).1 ∧
    random_blocks E c (n1 + n2) =
      ((List.range (n1 + n2)).map (fun k => E (c + k)), c + (n1 + n2)) := by
  constructor
  · rw [random_blocks_stream, random_blocks_stream, random_blocks_stream]
    simp only
    rw [List.range_add, List.map_append]
    congr 1
    simp only [List.map_map]
    apply List.map_congr_left
    intro x _
    simp only [Function.comp_apply]
    congr 1
    omega
  · exact random_blocks_stream E c (n1 + n2)

/-! ### COT sampling (`cot/mod.rs`, `cot/client.rs`) -/

/-- `BitsLE::iter`: the `W` bits of a ring value in little-endian order
(`get_bit i = (x >> i) & 1`). -/
def bitsLE (W x : Nat) : List Bool :=
  (List.range W).map (fun i => x.testBit i)

/-- `ChoiceSeed::expand`: seed a `StdRng`, draw `ceil(n/32)` 32-bit lanes into
a `PackedBits`, and iterate its first `n` bits.  The PRG is the abstract draw
function `rand32 seed laneIndex`; bit `i` of the expansion is bit `i % 32` of
lane `i / 32` (the tail-lane masking of `PackedBits` clears only bits at or
beyond `n`, which the iterator never yields). -/
def choiceSeedExpand (rand32 : Nat → Nat → Nat) (seed n : Nat) : List Bool :=
  (List.range n).map (fun i => (rand32 seed (i / 32)).testBit (i % 32))

/-- `COTSeed::expand`: run the seeded `BlockRng` (counter starting at 0, AES
key scheduled from the seed — the keyed permutation is `aes seed`) to produce
`n` blocks. -/
def cotSeedExpand (aes : Nat → Nat → Nat) (seed n : Nat) : List Nat :=
  (random_blocks (aes seed) 0 n).1

/-- `COTSeed::expand_selected`: expand `qs` and add `delta` (GF add = XOR) at
every selected position; `Iterator::zip` truncates to the shorter sequence. -/
def expand_selected (aes : Nat → Nat → Nat) (seed n delta : Nat)
    (select : List Bool) : List Nat :=
  List.zipWith (fun q choice => if choice then q ^^^ delta else q)
    (cotSeedExpand aes seed n) select

/-- `COTGen::sample_cots`: the choice sequence is the bits of `inputs_1`
(each entry viewed as `W` little-endian bits) followed by `num_additional`
bits expanded from the choice seed; `ts` is the selected expansion of the
`qs` seed over `inputs_1.len() * W + num_additional` positions.  The two
sampled seeds are taken as arguments (the RNG draws
`qs_seed` and `choice_seed` fresh).  Returns
`(B2ACOTToAlice (delta, qs_seed), B2ACOTToBob (choice_seed, ts))`. -/
def sample_cots (aes rand32 : Nat → Nat → Nat) (inputs1 : List Nat)
    (W qsSeed choiceSeed delta numAdditional : Nat) :
    (Nat × Nat) × (Nat × List Nat) :=
  let choices := (inputs1.map (bitsLE W)).flatten ++
    choiceSeedExpand rand32 choiceSeed numAdditional
  let ts := expand_selected aes qsSeed
    (inputs1.length * W + numAdditional) delta choices
  ((delta, qsSeed), (choiceSeed, ts))

theorem cotSeedExpand_length (aes : Nat → Nat → Nat) (seed n : Nat) :
    (cotSeedExpand aes seed n).length = n := by
  unfold cotSeedExpand
  rw [random_blocks_stream]
  simp

theorem choiceSeedExpand_length (rand32 : Nat → Nat → Nat) (seed n : Nat) :
    (choiceSeedExpand rand32 seed n).length = n := by
  simp [choiceSeedExpand]

theorem bits_join_length (W : Nat) (inputs1 : List Nat) :
    ((inputs1.map (bitsLE W)).flatten).length = inputs1.length * W := by
  induction inputs1 with
  | nil => simp
  | cons x xs ih =>
    simp only [List.map_cons, List.flatten_cons, List.length_append, ih]
    simp [bitsLE]
    ring

/-- C5: COT pair invariant: for every batch generated by `COTGen::sample_cots`
from `inputs_1` (N values of width W bits), `delta`, and an overhead count,
the receiver's vector `ts` has exactly `N*W + overhead` entries and, letting
`qs` be the expansion of `qs_seed` and the choice sequence be the `N*W` bits
of `inputs_1` followed by the overhead bits expanded from `choice_seed`,
`ts[i] = qs[i] XOR (choice[i] ? delta : 0)` in GF(2^128) for every `i`. -/
theorem c5_cot_pair_invariant (aes rand32 : Nat → Nat → Nat)
    (inputs1 : List Nat) (W qsSeed choiceSeed delta numAdditional i : Nat)
    (hi : i < inputs1.length * W + numAdditional) :
    (sample_cots aes rand32 inputs1 W qsSeed choiceSeed delta
        numAdditional).2.2.length = inputs1.length * W + numAdditional ∧
    (sample_cots aes rand32 inputs1 W qsSeed choiceSeed delta
        numAdditional).2.2.getD i 0 =
      (cotSeedExpand aes qsSeed
          (inputs1.length * W + numAdditional)).getD i 0 ^^^
        (if ((inputs1.map (bitsLE W)).flatten ++
              choiceSeedExpand rand32 choiceSeed numAdditional).getD i false
          then delta else 0) := by
  have hql := cotSeedExpand_length aes qsSeed (inputs1.length * W + numAdditional)
  have hcl : ((inputs1.map (bitsLE W)).flatten ++
      choiceSeedExpand rand32 choiceSeed numAdditional).length =
      inputs1.length * W + numAdditional := by
    rw [List.length_append, bits_join_length, choiceSeedExpand_length]
  have hts : (sample_cots aes rand32 inputs1 W qsSeed choiceSeed delta
      numAdditional).2.2 =
      List.zipWith (fun q choice => if choice then q ^^^ delta else q)
        (cotSeedExpand aes qsSeed (inputs1.length * W + numAdditional))
        ((inputs1.map (bitsLE W)).flatten ++
          choiceSeedExpand rand32 choiceSeed numAdditional) := rfl
  have hlen : (sample_cots aes rand32 inputs1 W qsSeed choiceSeed delta
      numAdditional).2.2.length = inputs1.length * W + numAdditional := by
    rw [hts, List.length_zipWith, hql, hcl, Nat.min_self]
  refine ⟨hlen, ?_⟩
  rw [hts]
  rw [List.getD_eq_getElem _ _ (by rw [List.length_zipWith, hql, hcl, Nat.min_self]; exact hi),
      List.getD_eq_getElem _ _ (by rw [hql]; exact hi),
      List.getD_eq_getElem _ _ (by rw [hcl]; exact hi)]
  rw [List.getElem_zipWith]
  by_cases hc : ((inputs1.map (bitsLE W)).flatten ++
      choiceSeedExpand rand32 choiceSeed numAdditional)[i] = true
  · simp [hc]
  · simp only [Bool.not_eq_true] at hc
    simp [hc]

theorem c5_cot_pair_invariant_witness :
    (sample_cots (fun _ _ => 0) (fun _ _ => 0) [3] 2 0 0 5 1).2.2.length =
        [3].length * 2 + 1 ∧
    (sample_cots (fun _ _ => 0) (fun _ _ => 0) [3] 2 0 0 5 1).2.2.getD 0 0 =
      (cotSeedExpand (fun _ _ => 0) 0 ([3].length * 2 + 1)).getD 0 0 ^^^
        (if (([3].map (bitsLE 2)).flatten ++
              choiceSeedExpand (fun _ _ => 0) 0 1).getD 0 false
          then 5 else 0) :=
  c5_cot_pair_invariant (fun _ _ => 0) (fun _ _ => 0) [3] 2 0 0 5 1 0 (by decide)

/-! ### COT verification (`cot/server.rs`) -/

/-- `inner_product`: `a.dot(b)` in GF(2^256), a fold of
`prev.add_gf(left.mul_gf_no_reduction(right))` over the zipped slices. -/
def inner_product (a b : List Nat) : Nat × Nat :=
  (a.zip b).foldl
    (fun prev p => add_gf256 prev (mul_gf_no_reduction p.1 p.2)) (0, 0)

/-- `inner_product_with_boolean_scalar`: XOR of the blocks whose boolean
scalar is set, a fold over the zipped sequences. -/
def inner_product_with_boolean_scalar (a : List Bool) (b : List Nat) : Nat :=
  (a.zip b).foldl (fun prev p => if p.1 then prev ^^^ p.2 else prev) 0

/-- `OTReceiver::send_x_til_t_til`: expand `r` from the choice seed over the
tail positions, form `x_hat = bits(inputs_1) ++ r`, and return
`(x_til, t_til) = (x_hat.dot(chi), ts.dot(chi))`. -/
def send_x_til_t_til (rand32 : Nat → Nat → Nat) (ts chi inputs1 : List Nat)
    (W rSeed : Nat) : Nat × (Nat × Nat) :=
  let rSize := chi.length - inputs1.length * W
  let xHat := (inputs1.map (bitsLE W)).flatten ++
    choiceSeedExpand rand32 rSeed rSize
  (inner_product_with_boolean_scalar xHat chi, inner_product ts chi)

/-- `OTSender::verify_and_get_cot`: expand `qs` from the seed, compute
`q_til = qs.dot(chi)`, and accept iff
`t_til = q_til + delta * x_til` in GF(2^256). -/
def verify_and_get_cot (aes : Nat → Nat → Nat) (qsSeed : Nat) (chi : List Nat)
    (delta xTil : Nat) (tTil : Nat × Nat) : List Nat × Bool :=
  let qs := cotSeedExpand aes qsSeed chi.length
  (qs, decide (tTil =
    add_gf256 (inner_product qs chi) (mul_gf_no_reduction delta xTil)))

theorem add256_zero_left (x : Nat × Nat) : add_gf256 (0, 0) x = x := by
  cases x
  simp [add_gf256]

theorem add256_zero_right (x : Nat × Nat) : add_gf256 x (0, 0) = x := by
  cases x
  simp [add_gf256]

theorem add256_assoc (x y z : Nat × Nat) :
    add_gf256 (add_gf256 x y) z = add_gf256 x (add_gf256 y z) := by
  simp [add_gf256, Nat.xor_assoc]

theorem add256_comm (x y : Nat × Nat) : add_gf256 x y = add_gf256 y x := by
  simp [add_gf256, Nat.xor_comm]

theorem foldl_add256_acc (f : Nat × Nat → Nat × Nat) (l : List (Nat × Nat)) :
    ∀ acc, l.foldl (fun prev p => add_gf256 prev (f p)) acc =
      add_gf256 acc (l.foldl (fun prev p => add_gf256 prev (f p)) (0, 0)) := by
  induction l with
  | nil => intro acc; exact (add256_zero_right acc).symm
  | cons x xs ih =>
    intro acc
    simp only [List.foldl_cons]
    rw [ih (add_gf256 acc (f x)), ih (add_gf256 (0, 0) (f x)),
      add256_zero_left, add256_assoc]

theorem inner_product_nil_left (b : List Nat) : inner_product [] b = (0, 0) := rfl

theorem inner_product_nil_right (a : List Nat) : inner_product a [] = (0, 0) := by
  simp [inner_product]

theorem inner_product_cons (x y : Nat) (xs ys : List Nat) :
    inner_product (x :: xs) (y :: ys) =
      add_gf256 (mul_gf_no_reduction x y) (inner_product xs ys) := by
  unfold inner_product
  simp only [List.zip_cons_cons, List.foldl_cons]
  rw [foldl_add256_acc _ _ (add_gf256 (0, 0) (mul_gf_no_reduction x y)),
    add256_zero_left]

theorem foldl_xor_acc (l : List (Bool × Nat)) :
    ∀ acc, l.foldl (fun prev p => if p.1 then prev ^^^ p.2 else prev) acc =
      acc ^^^ l.foldl (fun prev p => if p.1 then prev ^^^ p.2 else prev) 0 := by
  induction l with
  | nil => intro acc; simp
  | cons x xs ih =>
    intro acc
    simp only [List.foldl_cons]
    by_cases h : x.1
    · simp only [h, if_true]
      rw [ih (acc ^^^ x.2), ih (0 ^^^ x.2), Nat.zero_xor, Nat.xor_assoc]
    · simp only [h, if_false]
      exact ih acc

theorem ipb_nil_right (a : List Bool) :
    inner_product_with_boolean_scalar a [] = 0 := by
  simp [inner_product_with_boolean_scalar]

theorem ipb_cons (c : Bool) (cs : List Bool) (x : Nat) (xs : List Nat) :
    inner_product_with_boolean_scalar (c :: cs) (x :: xs) =
      (if c then x else 0) ^^^ inner_product_with_boolean_scalar cs xs := by
  unfold inner_product_with_boolean_scalar
  simp only [List.zip_cons_cons, List.foldl_cons]
  cases c
  · rw [if_neg (by simp), if_neg (by simp), Nat.zero_xor]
  · rw [if_pos rfl, if_pos rfl, Nat.zero_xor]
    exact foldl_xor_acc _ x

/-- Key MAC identity: the GF(2^256) inner product of a selected expansion
(`t_i = q_i XOR (c_i ? delta : 0)`) against `chi` splits into the `qs` inner
product plus `delta` times the boolean inner product of the choices. -/
theorem inner_product_selected (delta : Nat) :
    ∀ (qs : List Nat) (cs : List Bool) (chi : List Nat),
      qs.length = cs.length → cs.length = chi.length →
      inner_product
          (List.zipWith (fun q choice => if choice then q ^^^ delta else q) qs cs)
          chi =
        add_gf256 (inner_product qs chi)
          (mul_gf_no_reduction delta
            (inner_product_with_boolean_scalar cs chi)) := by
  intro qs
  induction qs with
  | nil =>
    intro cs chi h1 h2
    have hcs : cs = [] := by
      cases cs
      · rfl
      · simp at h1
    subst hcs
    have hz : ([] : List Bool).zip chi = [] := rfl
    simp only [List.zipWith_nil_left, inner_product_nil_left,
      inner_product_with_boolean_scalar, hz, List.foldl_nil,
      mul_gf_zero_right]
    exact (add256_zero_left (0, 0)).symm
  | cons q qs ih =>
    intro cs chi h1 h2
    match cs, chi with
    | [], _ => simp at h1
    | _ :: _, [] => simp at h2
    | c :: cs, x :: chi =>
      simp only [List.zipWith_cons_cons, List.length_cons] at *
      rw [inner_product_cons, inner_product_cons, ipb_cons,
        ih cs chi (by omega) (by omega), mul_gf_xor_right]
      have hsel : mul_gf_no_reduction (if c then q ^^^ delta else q) x =
          add_gf256 (mul_gf_no_reduction q x)
            (mul_gf_no_reduction delta (if c then x else 0)) := by
        cases c
        · rw [if_neg (by simp), if_neg (by simp), mul_gf_zero_right,
            add256_zero_right]
        · rw [if_pos rfl, if_pos rfl, mul_gf_xor_left]
      rw [hsel]
      generalize mul_gf_no_reduction q x = A
      generalize inner_product qs chi = B
      generalize mul_gf_no_reduction delta (if c then x else 0) = C
      generalize mul_gf_no_reduction delta
        (inner_product_with_boolean_scalar cs chi) = D
      rw [add256_assoc, add256_assoc]
      congr 1
      rw [← add256_assoc, ← add256_assoc, add256_comm C B]

/-- Replacing `l[i]` by `l[i] XOR e` shifts the GF(2^256) inner product by
`e * chi[i]`. -/
theorem inner_product_set (e : Nat) :
    ∀ (l chi : List Nat) (i : Nat), i < l.length → l.length = chi.length →
      inner_product (l.set i (l.getD i 0 ^^^ e)) chi =
        add_gf256 (inner_product l chi)
          (mul_gf_no_reduction e (chi.getD i 0)) := by
  intro l
  induction l with
  | nil => intro chi i hi _; simp at hi
  | cons x xs ih =>
    intro chi i hi hlen
    match chi with
    | [] => simp at hlen
    | y :: ys =>
      match i with
      | 0 =>
        simp only [List.getD_cons_zero, List.set_cons_zero]
        rw [inner_product_cons, inner_product_cons, mul_gf_xor_left,
          add256_assoc, add256_assoc]
        congr 1
        rw [add256_comm]
      | i + 1 =>
        simp only [List.getD_cons_succ, List.set_cons_succ]
        rw [inner_product_cons, inner_product_cons,
          ih ys i (by simpa using hi) (by simpa using hlen),
          ← add256_assoc]

theorem add256_cancel {t m : Nat × Nat} (h : add_gf256 t m = t) : m = (0, 0) := by
  have h1 : t.1 ^^^ m.1 = t.1 := congrArg Prod.fst h
  have h2 : t.2 ^^^ m.2 = t.2 := congrArg Prod.snd h
  have e1 : m.1 = 0 := by
    have := congrArg (fun z => t.1 ^^^ z) h1
    simpa [← Nat.xor_assoc] using this
  have e2 : m.2 = 0 := by
    have := congrArg (fun z => t.2 ^^^ z) h2
    simpa [← Nat.xor_assoc] using this
  cases m
  simp_all

/-- C1: honest COT verification accepts, and any single-bit corruption of a
`ts` entry is rejected whenever the challenge at that position is nonzero
(which fails with probability `2^-128` over a random `chi`): for a batch
honestly generated by `COTGen::sample_cots` and any challenge vector `chi` of
matching length, `OTSender::verify_and_get_cot` applied to the receiver's
`(x_til, t_til)` returns `true`; flipping bit `j` of `ts[i]` makes it return
`false` provided `chi[i] ≠ 0`. -/
theorem c1_cot_verify (aes rand32 : Nat → Nat → Nat) (inputs1 : List Nat)
    (W qsSeed choiceSeed delta numAdditional i j : Nat) (chi : List Nat)
    (hchi : chi.length = inputs1.length * W + numAdditional)
    (hi : i < chi.length) (hj : j < 128)
    (hchirange : ∀ x ∈ chi, x < 2 ^ 128) (hchii : chi.getD i 0 ≠ 0) :
    (verify_and_get_cot aes qsSeed chi delta
        (send_x_til_t_til rand32
          (sample_cots aes rand32 inputs1 W qsSeed choiceSeed delta
            numAdditional).2.2 chi inputs1 W choiceSeed).1
        (send_x_til_t_til rand32
          (sample_cots aes rand32 inputs1 W qsSeed choiceSeed delta
            numAdditional).2.2 chi inputs1 W choiceSeed).2).2 = true ∧
    (verify_and_get_cot aes qsSeed chi delta
        (send_x_til_t_til rand32
          ((sample_cots aes rand32 inputs1 W qsSeed choiceSeed delta
              numAdditional).2.2.set i
            ((sample_cots aes rand32 inputs1 W qsSeed choiceSeed delta
                numAdditional).2.2.getD i 0 ^^^ 2 ^ j))
          chi inputs1 W choiceSeed).1
        (send_x_til_t_til rand32
          ((sample_cots aes rand32 inputs1 W qsSeed choiceSeed delta
              numAdditional).2.2.set i
            ((sample_cots aes rand32 inputs1 W qsSeed choiceSeed delta
                numAdditional).2.2.getD i 0 ^^^ 2 ^ j))
          chi inputs1 W choiceSeed).2).2 = false := by
  set qs := cotSeedExpand aes qsSeed (inputs1.length * W + numAdditional) with hqs
  set choices := (inputs1.map (bitsLE W)).flatten ++
    choiceSeedExpand rand32 choiceSeed numAdditional with hchoices
  have hql : qs.length = inputs1.length * W + numAdditional :=
    cotSeedExpand_length aes qsSeed _
  have hcl : choices.length = inputs1.length * W + numAdditional := by
    rw [hchoices, List.length_append, bits_join_length, choiceSeedExpand_length]
  have hts : (sample_cots aes rand32 inputs1 W qsSeed choiceSeed delta
      numAdditional).2.2 =
      List.zipWith (fun q choice => if choice then q ^^^ delta else q)
        qs choices := rfl
  have htsl : (sample_cots aes rand32 inputs1 W qsSeed choiceSeed delta
      numAdditional).2.2.length = chi.length := by
    rw [hts, List.length_zipWith, hql, hcl, hchi, Nat.min_self]
  have hrsize : chi.length - inputs1.length * W = numAdditional := by omega
  have hxhat : ∀ ts : List Nat,
      (send_x_til_t_til rand32 ts chi inputs1 W choiceSeed).1 =
        inner_product_with_boolean_scalar choices chi := by
    intro ts
    simp only [send_x_til_t_til, hrsize, hchoices]
  have httil : ∀ ts : List Nat,
      (send_x_til_t_til rand32 ts chi inputs1 W choiceSeed).2 =
        inner_product ts chi := fun _ => rfl
  have hhonest :
      inner_product ((sample_cots aes rand32 inputs1 W qsSeed choiceSeed delta
          numAdditional).2.2) chi =
        add_gf256 (inner_product qs chi)
          (mul_gf_no_reduction delta
            (inner_product_with_boolean_scalar choices chi)) := by
    rw [hts]
    exact inner_product_selected delta qs choices chi (by omega) (by omega)
  have hqs_chi : cotSeedExpand aes qsSeed chi.length = qs := by
    rw [hqs, hchi]
  constructor
  · simp only [verify_and_get_cot, hxhat, httil, hhonest, hqs_chi]
    simp
  · simp only [verify_and_get_cot, hxhat, httil, hqs_chi]
    rw [inner_product_set (2 ^ j) _ chi i (by omega) (by rw [htsl]),
      hhonest]
    rw [decide_eq_false_iff_not]
    intro hcontra
    have hm := add256_cancel hcontra
    have hchimem : chi.getD i 0 < 2 ^ 128 := by
      rw [List.getD_eq_getElem _ _ hi]
      exact hchirange _ (List.getElem_mem hi)
    exact mul_gf_two_pow_ne_zero j (chi.getD i 0) hj hchimem hchii hm

theorem c1_cot_verify_witness :
    (verify_and_get_cot (fun _ _ => 0) 0 [1] 5
        (send_x_til_t_til (fun _ _ => 0)
          (sample_cots (fun _ _ => 0) (fun _ _ => 0) [] 0 0 0 5 1).2.2
          [1] [] 0 0).1
        (send_x_til_t_til (fun _ _ => 0)
          (sample_cots (fun _ _ => 0) (fun _ _ => 0) [] 0 0 0 5 1).2.2
          [1] [] 0 0).2).2 = true ∧
    (verify_and_get_cot (fun _ _ => 0) 0 [1] 5
        (send_x_til_t_til (fun _ _ => 0)
          ((sample_cots (fun _ _ => 0) (fun _ _ => 0) [] 0 0 0 5 1).2.2.set 0
            ((sample_cots (fun _ _ => 0) (fun _ _ => 0) [] 0 0 0 5
                1).2.2.getD 0 0 ^^^ 2 ^ 0))
          [1] [] 0 0).1
        (send_x_til_t_til (fun _ _ => 0)
          ((sample_cots (fun _ _ => 0) (fun _ _ => 0) [] 0 0 0 5 1).2.2.set 0
            ((sample_cots (fun _ _ => 0) (fun _ _ => 0) [] 0 0 0 5
                1).2.2.getD 0 0 ^^^ 2 ^ 0))
          [1] [] 0 0).2).2 = false :=
  c1_cot_verify (fun _ _ => 0) (fun _ _ => 0) [] 0 0 0 5 1 0 0 [1]
    (by decide) (by decide) (by norm_num)
    (by intro x hx; simp at hx; omega) (by decide)

/-! ### Ring arithmetic (`uint.rs`): wrapping operations of width `W` -/

/-- `wrapping_add` in the ring `Z/(2^W)`. -/
def wadd (W a b : Nat) : Nat := (a + b) % 2 ^ W

/-- `wrapping_mul` in the ring `Z/(2^W)`. -/
def wmul (W a b : Nat) : Nat := (a * b) % 2 ^ W

/-- `wrapping_sub` in the ring `Z/(2^W)`. -/
def wsub (W a b : Nat) : Nat := (a + (2 ^ W - b % 2 ^ W)) % 2 ^ W

/-- `wrapping_neg` in the ring `Z/(2^W)`. -/
def wneg (W a : Nat) : Nat := (2 ^ W - a % 2 ^ W) % 2 ^ W

theorem natCast_mod_zmod (W x : Nat) :
    ((x % 2 ^ W : Nat) : ZMod (2 ^ W)) = (x : ZMod (2 ^ W)) := by
  have h0 : ((2 ^ W : Nat) : ZMod (2 ^ W)) = 0 := ZMod.natCast_self _
  push_cast at h0
  conv_rhs => rw [← Nat.div_add_mod x (2 ^ W)]
  push_cast
  rw [h0]
  ring

theorem natCast_mod_zmod_dvd {M : Nat} (W : Nat) (h : M ∣ 2 ^ W) (x : Nat) :
    ((x % 2 ^ W : Nat) : ZMod M) = (x : ZMod M) := by
  have h0 : ((2 ^ W : Nat) : ZMod M) = 0 := (ZMod.natCast_zmod_eq_zero_iff_dvd _ _).mpr h
  push_cast at h0
  conv_rhs => rw [← Nat.div_add_mod x (2 ^ W)]
  push_cast
  rw [h0]
  ring

theorem wadd_cast (W a b : Nat) :
    ((wadd W a b : Nat) : ZMod (2 ^ W)) = (a : ZMod (2 ^ W)) + b := by
  unfold wadd
  rw [natCast_mod_zmod]
  push_cast
  ring

theorem wmul_cast (W a b : Nat) :
    ((wmul W a b : Nat) : ZMod (2 ^ W)) = (a : ZMod (2 ^ W)) * b := by
  unfold wmul
  rw [natCast_mod_zmod]
  push_cast
  ring

theorem wsub_cast (W a b : Nat) :
    ((wsub W a b : Nat) : ZMod (2 ^ W)) = (a : ZMod (2 ^ W)) - b := by
  unfold wsub
  rw [natCast_mod_zmod]
  have h0 : ((2 ^ W : Nat) : ZMod (2 ^ W)) = 0 := ZMod.natCast_self _
  push_cast at h0
  have hle : b % 2 ^ W ≤ 2 ^ W :=
    le_of_lt (Nat.mod_lt _ (Nat.pos_pow_of_pos _ (by norm_num)))
  push_cast [hle]
  rw [h0, natCast_mod_zmod]
  ring

theorem wneg_cast (W a : Nat) :
    ((wneg W a : Nat) : ZMod (2 ^ W)) = -(a : ZMod (2 ^ W)) := by
  unfold wneg
  rw [natCast_mod_zmod]
  have h0 : ((2 ^ W : Nat) : ZMod (2 ^ W)) = 0 := ZMod.natCast_self _
  push_cast at h0
  have hle : a % 2 ^ W ≤ 2 ^ W :=
    le_of_lt (Nat.mod_lt _ (Nat.pos_pow_of_pos _ (by norm_num)))
  push_cast [hle]
  rw [h0, natCast_mod_zmod]
  ring

theorem wadd_lt (W a b : Nat) : wadd W a b < 2 ^ W :=
  Nat.mod_lt _ (Nat.pos_pow_of_pos _ (by norm_num))

theorem wmul_lt (W a b : Nat) : wmul W a b < 2 ^ W :=
  Nat.mod_lt _ (Nat.pos_pow_of_pos _ (by norm_num))

theorem wsub_lt (W a b : Nat) : wsub W a b < 2 ^ W :=
  Nat.mod_lt _ (Nat.pos_pow_of_pos _ (by norm_num))

/-- Two ring values below `2^W` with equal images in `ZMod (2^W)` are equal. -/
theorem eq_of_zmod_eq {W a b : Nat} (ha : a < 2 ^ W) (hb : b < 2 ^ W)
    (h : (a : ZMod (2 ^ W)) = (b : ZMod (2 ^ W))) : a = b := by
  haveI : NeZero (2 ^ W) := ⟨Nat.pos_iff_ne_zero.mp (Nat.pos_pow_of_pos _ (by norm_num))⟩
  have := congrArg ZMod.val h
  rwa [ZMod.val_natCast_of_lt ha, ZMod.val_natCast_of_lt hb] at this

/-- `crypto_primitives::ALICE`. -/
def ALICE : Bool := false

/-- `crypto_primitives::BOB`. -/
def BOB : Bool := true

/-- Three-way `zipWith`, used to transcribe elementwise loops over three
slices of equal length. -/
def zipWith3 (f : α → β → γ → δ) : List α → List β → List γ → List δ
  | a :: l1, b :: l2, c :: l3 => f a b c :: zipWith3 f l1 l2 l3
  | _, _, _ => []

theorem zipWith3_getD (f : α → β → γ → δ) (d1 : α) (d2 : β) (d3 : γ) (d : δ) :
    ∀ (l1 : List α) (l2 : List β) (l3 : List γ) (i : Nat),
      i < l1.length → i < l2.length → i < l3.length →
      (zipWith3 f l1 l2 l3).getD i d =
        f (l1.getD i d1) (l2.getD i d2) (l3.getD i d3) := by
  intro l1
  induction l1 with
  | nil => intro l2 l3 i h1 _ _; simp at h1
  | cons a t1 ih =>
    intro l2 l3 i h1 h2 h3
    match l2, l3 with
    | [], _ => simp at h2
    | _ :: _, [] => simp at h3
    | b :: t2, c :: t3 =>
      match i with
      | 0 => rfl
      | i + 1 =>
        simp only [zipWith3, List.getD_cons_succ]
        exact ih t2 t3 i (by simpa using h1) (by simpa using h2) (by simpa using h3)

/-! ### A2S (`a2s.rs`) -/

/-- `a2s_first`: a party's share of `x - a` (round 1 of A2S). -/
def a2s_first (W xb : Nat) (corrb : Nat × Nat) : Nat :=
  wsub W xb corrb.1

/-- `a2s_second`: a party's share of `x^2` (round 2 of A2S); Alice
(`PARTY = ALICE`) additionally subtracts `e^2`. -/
def a2s_second (W : Nat) (party : Bool) (e xb : Nat) (corrb : Nat × Nat) : Nat :=
  let eDoubled := wadd W e e
  let cb := corrb.2
  let t1 := wadd W (wmul W eDoubled xb) cb
  if party = ALICE then wsub W t1 (wmul W e e) else t1

/-- `batch_a2s_first`. -/
def batch_a2s_first (W : Nat) (xbs : List Nat) (corrbs : List (Nat × Nat)) :
    List Nat :=
  List.zipWith (fun xb corrb => a2s_first W xb corrb) xbs corrbs

/-- `batch_a2s_second`. -/
def batch_a2s_second (W : Nat) (party : Bool) (es xbs : List Nat)
    (corrbs : List (Nat × Nat)) : List Nat :=
  zipWith3 (fun e xb corrb => a2s_second W party e xb corrb) es xbs corrbs

/-- Single-element A2S round trip, proven in `ZMod (2^W)`. -/
theorem a2s_single_round_trip (W x0 x1 : Nat) (corr0 corr1 : Nat × Nat)
    (hvalid : wadd W corr0.2 corr1.2 =
      wmul W (wadd W corr0.1 corr1.1) (wadd W corr0.1 corr1.1)) :
    wadd W
      (a2s_second W ALICE
        (wadd W (a2s_first W x0 corr0) (a2s_first W x1 corr1)) x0 corr0)
      (a2s_second W BOB
        (wadd W (a2s_first W x0 corr0) (a2s_first W x1 corr1)) x1 corr1) =
    wmul W (wadd W x0 x1) (wadd W x0 x1) := by
  apply eq_of_zmod_eq (wadd_lt W _ _) (wmul_lt W _ _)
  have hv := congrArg (fun z : Nat => (z : ZMod (2 ^ W))) hvalid
  simp only [wadd_cast, wmul_cast] at hv
  simp [a2s_second, a2s_first, ALICE, BOB, wadd_cast, wmul_cast, wsub_cast]
  linear_combination hv

/-- C4: A2S round trip: for every `x` shared arithmetically as `x = x0 + x1`
in the ring and every valid square-correlation share pair
(`a0 + a1` squared equals `c0 + c1`), with `e` opened as the sum of both
parties' `a2s_first` outputs, the sum of Alice's `a2s_second` output
(PARTY = ALICE, which subtracts `e^2`) and Bob's `a2s_second` output
(PARTY = BOB) equals `x * x` in the ring, elementwise over a batch. -/
theorem c4_a2s_round_trip (W : Nat) (x0s x1s : List Nat)
    (corr0s corr1s : List (Nat × Nat)) (k : Nat)
    (hl1 : x1s.length = x0s.length) (hl2 : corr0s.length = x0s.length)
    (hl3 : corr1s.length = x0s.length) (hk : k < x0s.length)
    (hvalid : ∀ i, i < x0s.length →
      wadd W (corr0s.getD i (0, 0)).2 (corr1s.getD i (0, 0)).2 =
        wmul W (wadd W (corr0s.getD i (0, 0)).1 (corr1s.getD i (0, 0)).1)
          (wadd W (corr0s.getD i (0, 0)).1 (corr1s.getD i (0, 0)).1)) :
    wadd W
      ((batch_a2s_second W ALICE
          (List.zipWith (wadd W) (batch_a2s_first W x0s corr0s)
            (batch_a2s_first W x1s corr1s)) x0s corr0s).getD k 0)
      ((batch_a2s_second W BOB
          (List.zipWith (wadd W) (batch_a2s_first W x0s corr0s)
            (batch_a2s_first W x1s corr1s)) x1s corr1s).getD k 0) =
    wmul W (wadd W (x0s.getD k 0) (x1s.getD k 0))
      (wadd W (x0s.getD k 0) (x1s.getD k 0)) := by
  have hf0 : (batch_a2s_first W x0s corr0s).length = x0s.length := by
    simp [batch_a2s_first, hl2]
  have hf1 : (batch_a2s_first W x1s corr1s).length = x0s.length := by
    simp [batch_a2s_first, hl1, hl2, hl3]
  have hes : (List.zipWith (wadd W) (batch_a2s_first W x0s corr0s)
      (batch_a2s_first W x1s corr1s)).length = x0s.length := by
    simp [hf0, hf1]
  unfold batch_a2s_second
  rw [zipWith3_getD (fun e xb corrb => a2s_second W ALICE e xb corrb)
        0 0 (0, 0) 0 _ _ _ k (by omega) (by omega) (by omega),
      zipWith3_getD (fun e xb corrb => a2s_second W BOB e xb corrb)
        0 0 (0, 0) 0 _ _ _ k (by omega) (by omega) (by omega)]
  have hesk : (List.zipWith (wadd W) (batch_a2s_first W x0s corr0s)
      (batch_a2s_first W x1s corr1s)).getD k 0 =
      wadd W (a2s_first W (x0s.getD k 0) (corr0s.getD k (0, 0)))
        (a2s_first W (x1s.getD k 0) (corr1s.getD k (0, 0))) := by
    rw [List.getD_eq_getElem _ _ (by omega), List.getElem_zipWith]
    unfold batch_a2s_first
    rw [List.getElem_zipWith, List.getElem_zipWith]
    rw [List.getD_eq_getElem _ _ (by omega), List.getD_eq_getElem _ _ (by omega),
        List.getD_eq_getElem _ _ (by omega), List.getD_eq_getElem _ _ (by omega)]
  rw [hesk]
  exact a2s_single_round_trip W (x0s.getD k 0) (x1s.getD k 0)
    (corr0s.getD k (0, 0)) (corr1s.getD k (0, 0)) (hvalid k hk)

theorem c4_a2s_round_trip_witness :
    wadd 4
      ((batch_a2s_second 4 ALICE
          (List.zipWith (wadd 4) (batch_a2s_first 4 [3] [(2, 9)])
            (batch_a2s_first 4 [5] [(3, 0)])) [3] [(2, 9)]).getD 0 0)
      ((batch_a2s_second 4 BOB
          (List.zipWith (wadd 4) (batch_a2s_first 4 [3] [(2, 9)])
            (batch_a2s_first 4 [5] [(3, 0)])) [5] [(3, 0)]).getD 0 0) =
    wmul 4 (wadd 4 ([3].getD 0 0) ([5].getD 0 0))
      (wadd 4 ([3].getD 0 0) ([5].getD 0 0)) :=
  c4_a2s_round_trip 4 [3] [5] [(2, 9)] [(3, 0)] 0 rfl rfl rfl (by decide)
    (by intro i hi
        simp [Nat.lt_one_iff] at hi
        subst hi
        decide)

/-! ### Square correlations (`square_corr.rs`) -/

/-- Four-way `zipWith` for elementwise loops over four slices. -/
def zipWith4 (f : α → β → γ → δ → ε) :
    List α → List β → List γ → List δ → List ε
  | a :: l1, b :: l2, c :: l3, d :: l4 => f a b c d :: zipWith4 f l1 l2 l3 l4
  | _, _, _, _ => []

theorem zipWith3_length (f : α → β → γ → δ) :
    ∀ (l1 : List α) (l2 : List β) (l3 : List γ),
      (zipWith3 f l1 l2 l3).length = min l1.length (min l2.length l3.length) := by
  intro l1
  induction l1 with
  | nil => intro l2 l3; simp [zipWith3]
  | cons a t1 ih =>
    intro l2 l3
    match l2, l3 with
    | [], _ => simp [zipWith3]
    | _ :: _, [] => simp [zipWith3]
    | b :: t2, c :: t3 =>
      simp only [zipWith3, List.length_cons, ih t2 t3]
      omega

theorem zipWith4_getD (f : α → β → γ → δ → ε) (d1 : α) (d2 : β) (d3 : γ)
    (d4 : δ) (d : ε) :
    ∀ (l1 : List α) (l2 : List β) (l3 : List γ) (l4 : List δ) (i : Nat),
      i < l1.length → i < l2.length → i < l3.length → i < l4.length →
      (zipWith4 f l1 l2 l3 l4).getD i d =
        f (l1.getD i d1) (l2.getD i d2) (l3.getD i d3) (l4.getD i d4) := by
  intro l1
  induction l1 with
  | nil => intro l2 l3 l4 i h1 _ _ _; simp at h1
  | cons a t1 ih =>
    intro l2 l3 l4 i h1 h2 h3 h4
    match l2, l3, l4 with
    | [], _, _ => simp at h2
    | _ :: _, [], _ => simp at h3
    | _ :: _, _ :: _, [] => simp at h4
    | b :: t2, c :: t3, e :: t4 =>
      match i with
      | 0 => rfl
      | i + 1 =>
        simp only [zipWith4, List.getD_cons_succ]
        exact ih t2 t3 t4 i (by simpa using h1) (by simpa using h2)
          (by simpa using h3) (by simpa using h4)

/-- `SquareCorrShare::sample_odd_t`: draw a ring value and force the low bit. -/
def sample_odd_t (W r : Nat) : Nat := r % 2 ^ W ||| 1

theorem sample_odd_t_odd (W r : Nat) : sample_odd_t W r % 2 = 1 := by
  have : (sample_odd_t W r).testBit 0 = true := by
    simp [sample_odd_t, Nat.testBit_or]
  simpa [Nat.testBit_zero] using this

/-- `SquareCorrShare::open_d`: a party's share of `d = t*a - a'` (`a'` from
the sacrificed correlation). -/
def open_d (W t : Nat) (s sac : Nat × Nat) : Nat :=
  wsub W (wmul W t s.1) sac.1

/-- `SquareCorrShare::open_w`: Alice (`PARTY = ALICE`) sends
`t^2*c - c' - 2*t*d*a + d^2`; Bob sends `t^2*c - c' - 2*t*d*a`. -/
def open_w (W : Nat) (party : Bool) (t : Nat) (s sac : Nat × Nat) (d : Nat) :
    Nat :=
  let t1 := wsub W (wmul W (wmul W t t) s.2) sac.2
  let t2 := wmul W (wmul W t d) s.1
  let t2b := wadd W t2 t2
  if party = ALICE then wadd W (wsub W t1 t2b) (wmul W d d) else wsub W t1 t2b

/-- `SquareCorrShare::verify_phase_1`: the elementwise `open_d` loop. -/
def verify_phase_1 (W : Nat) (correlations sacrificed : List (Nat × Nat))
    (t : List Nat) : List Nat :=
  zipWith3 (fun s sac ti => open_d W ti s sac) correlations sacrificed t

/-- `SquareCorrShare::verify_phase_2`: the elementwise `open_w` loop. -/
def verify_phase_2 (W : Nat) (party : Bool)
    (correlations sacrificed : List (Nat × Nat)) (t d : List Nat) : List Nat :=
  zipWith4 (fun s sac ti di => open_w W party ti s sac di)
    correlations sacrificed t d

/-- `batch_make_sqcorr_shares`: Alice's shares are fresh draws
`(a0, c0)` from two PRG streams; Bob's are `(a1, c1)` with `a1` a fresh draw,
`a = a0 + a1`, `c = a*a`, `c1 = c - c0`.  The three ChaCha streams are the
abstract draw functions `ra0`, `ra1`, `rc0` (draw `i` of stream `r` is `r i`,
reduced to `W` bits as `T::rand` returns a `T`).  The seed messages
(`CorrShareSeedToAlice/Bob`) deterministically re-expand to these lists and
are elided. -/
def batch_make_sqcorr_shares (W : Nat) (ra0 ra1 rc0 : Nat → Nat)
    (size : Nat) : List (Nat × Nat) × List (Nat × Nat) :=
  let a0c0 := (List.range size).map (fun i => (ra0 i % 2 ^ W, rc0 i % 2 ^ W))
  let a1c1 := (List.range size).map (fun i =>
    let a1 := ra1 i % 2 ^ W
    let a := wadd W (ra0 i % 2 ^ W) a1
    let c := wmul W a a
    (a1, wsub W c (rc0 i % 2 ^ W)))
  (a0c0, a1c1)

theorem batch_make_fst_getD (W : Nat) (ra0 ra1 rc0 : Nat → Nat)
    (size i : Nat) (hi : i < size) :
    (batch_make_sqcorr_shares W ra0 ra1 rc0 size).1.getD i (0, 0) =
      (ra0 i % 2 ^ W, rc0 i % 2 ^ W) := by
  unfold batch_make_sqcorr_shares
  rw [List.getD_eq_getElem _ _ (by simpa using hi), List.getElem_map,
    List.getElem_range]

theorem batch_make_snd_getD (W : Nat) (ra0 ra1 rc0 : Nat → Nat)
    (size i : Nat) (hi : i < size) :
    (batch_make_sqcorr_shares W ra0 ra1 rc0 size).2.getD i (0, 0) =
      (ra1 i % 2 ^ W,
        wsub W (wmul W (wadd W (ra0 i % 2 ^ W) (ra1 i % 2 ^ W))
            (wadd W (ra0 i % 2 ^ W) (ra1 i % 2 ^ W)))
          (rc0 i % 2 ^ W)) := by
  unfold batch_make_sqcorr_shares
  rw [List.getD_eq_getElem _ _ (by simpa using hi), List.getElem_map,
    List.getElem_range]

/-- Shares produced by `batch_make_sqcorr_shares` satisfy the square
correlation `(a0 + a1)^2 = c0 + c1` in the ring. -/
theorem batch_make_valid (W : Nat) (ra0 ra1 rc0 : Nat → Nat)
    (size i : Nat) (hi : i < size) :
    wadd W ((batch_make_sqcorr_shares W ra0 ra1 rc0 size).1.getD i (0, 0)).2
        ((batch_make_sqcorr_shares W ra0 ra1 rc0 size).2.getD i (0, 0)).2 =
      wmul W
        (wadd W
          ((batch_make_sqcorr_shares W ra0 ra1 rc0 size).1.getD i (0, 0)).1
          ((batch_make_sqcorr_shares W ra0 ra1 rc0 size).2.getD i (0, 0)).1)
        (wadd W
          ((batch_make_sqcorr_shares W ra0 ra1 rc0 size).1.getD i (0, 0)).1
          ((batch_make_sqcorr_shares W ra0 ra1 rc0 size).2.getD i (0, 0)).1) := by
  rw [batch_make_fst_getD W ra0 ra1 rc0 size i hi,
    batch_make_snd_getD W ra0 ra1 rc0 size i hi]
  apply eq_of_zmod_eq (wadd_lt W _ _) (wmul_lt W _ _)
  simp only [wadd_cast, wmul_cast, wsub_cast]
  ring

/-- Honest square-correlation verification passes on one element, for every
challenge `t`. -/
theorem sqcorr_honest_single (W t : Nat) (s0 s1 sac0 sac1 : Nat × Nat)
    (hv : wadd W s0.2 s1.2 = wmul W (wadd W s0.1 s1.1) (wadd W s0.1 s1.1))
    (hvs : wadd W sac0.2 sac1.2 =
      wmul W (wadd W sac0.1 sac1.1) (wadd W sac0.1 sac1.1)) :
    wadd W
      (open_w W ALICE t s0 sac0
        (wadd W (open_d W t s0 sac0) (open_d W t s1 sac1)))
      (open_w W BOB t s1 sac1
        (wadd W (open_d W t s0 sac0) (open_d W t s1 sac1))) = 0 := by
  apply eq_of_zmod_eq (wadd_lt W _ _) (Nat.pos_pow_of_pos _ (by norm_num))
  have hv' := congrArg (fun z : Nat => (z : ZMod (2 ^ W))) hv
  have hvs' := congrArg (fun z : Nat => (z : ZMod (2 ^ W))) hvs
  simp only [wadd_cast, wmul_cast] at hv' hvs'
  simp [open_w, open_d, ALICE, BOB, wadd_cast, wmul_cast, wsub_cast]
  linear_combination (t : ZMod (2 ^ W)) ^ 2 * hv' - hvs'

/-- Corrupting Alice's `c` share of one element by `gamma` makes the opened
`w` equal `t^2 * gamma`. -/
theorem sqcorr_corrupt_single (W t gamma : Nat) (s0 s1 sac0 sac1 : Nat × Nat)
    (hv : wadd W s0.2 s1.2 = wmul W (wadd W s0.1 s1.1) (wadd W s0.1 s1.1))
    (hvs : wadd W sac0.2 sac1.2 =
      wmul W (wadd W sac0.1 sac1.1) (wadd W sac0.1 sac1.1)) :
    wadd W
      (open_w W ALICE t (s0.1, wadd W s0.2 gamma) sac0
        (wadd W (open_d W t (s0.1, wadd W s0.2 gamma) sac0)
          (open_d W t s1 sac1)))
      (open_w W BOB t s1 sac1
        (wadd W (open_d W t (s0.1, wadd W s0.2 gamma) sac0)
          (open_d W t s1 sac1))) =
    wmul W (wmul W t t) gamma := by
  apply eq_of_zmod_eq (wadd_lt W _ _) (wmul_lt W _ _)
  have hv' := congrArg (fun z : Nat => (z : ZMod (2 ^ W))) hv
  have hvs' := congrArg (fun z : Nat => (z : ZMod (2 ^ W))) hvs
  simp only [wadd_cast, wmul_cast] at hv' hvs'
  simp [open_w, open_d, ALICE, BOB, wadd_cast, wmul_cast, wsub_cast]
  linear_combination (t : ZMod (2 ^ W)) ^ 2 * hv' - hvs'

/-- An odd challenge detects every additive corruption: `t^2 * gamma` is
nonzero in the ring whenever `t` is odd and `gamma` is nonzero mod `2^W`. -/
theorem wmul_odd_sq_ne_zero (W t gamma : Nat) (hW : 0 < W)
    (ht : t % 2 = 1) (hγ : gamma % 2 ^ W ≠ 0) :
    wmul W (wmul W t t) gamma ≠ 0 := by
  intro h
  unfold wmul at h
  have hdvd : 2 ^ W ∣ (t * t % 2 ^ W) * gamma := Nat.dvd_of_mod_eq_zero h
  have hm : (t * t % 2 ^ W) % 2 = 1 := by
    have h2 : (2 : Nat) ∣ 2 ^ W := dvd_pow_self 2 (by omega)
    rw [Nat.mod_mod_of_dvd _ h2, Nat.mul_mod, ht]
  have hcop : Nat.Coprime (2 ^ W) (t * t % 2 ^ W) := by
    apply Nat.Coprime.pow_left
    exact Nat.coprime_two_left.mpr (Nat.odd_iff.mpr hm)
  have hdg : 2 ^ W ∣ gamma := hcop.dvd_of_dvd_mul_left hdvd
  obtain ⟨q, rfl⟩ := hdg
  simp [Nat.mul_mod_right] at hγ

theorem zipWith_getD (f : α → β → γ) (d1 : α) (d2 : β) (d : γ) :
    ∀ (l1 : List α) (l2 : List β) (i : Nat),
      i < l1.length → i < l2.length →
      (List.zipWith f l1 l2).getD i d = f (l1.getD i d1) (l2.getD i d2) := by
  intro l1
  induction l1 with
  | nil => intro l2 i h1 _; simp at h1
  | cons a t1 ih =>
    intro l2 i h1 h2
    match l2 with
    | [] => simp at h2
    | b :: t2 =>
      match i with
      | 0 => rfl
      | i + 1 =>
        simp only [List.zipWith_cons_cons, List.getD_cons_succ]
        exact ih t2 i (by simpa using h1) (by simpa using h2)

theorem batch_make_length (W : Nat) (ra0 ra1 rc0 : Nat → Nat) (size : Nat) :
    (batch_make_sqcorr_shares W ra0 ra1 rc0 size).1.length = size ∧
    (batch_make_sqcorr_shares W ra0 ra1 rc0 size).2.length = size := by
  unfold batch_make_sqcorr_shares
  simp

/-- C3 (amended): square-correlation verification on honest share batches
passes for every element and every challenge vector `t`; and corrupting one
`c` share value by a nonzero offset makes the corresponding `w` sum equal
`t^2 * gamma`, which is nonzero whenever the challenge at that position is
odd — as the challenges sampled by `sample_odd_t` always are.  (For an even
challenge, e.g. `t = 0`, the corruption can go undetected; see the
counterexample.) -/
theorem c3_sqcorr_verify (W : Nat) (ra0 ra1 rc0 sa0 sa1 sc0 : Nat → Nat)
    (size : Nat) (t : List Nat) (gamma k : Nat) (hW : 0 < W)
    (ht : t.length = size) (hk : k < size)
    (hodd : t.getD k 0 % 2 = 1) (hγ : gamma % 2 ^ W ≠ 0) :
    (∀ i, i < size →
      wadd W
        ((verify_phase_2 W ALICE
            (batch_make_sqcorr_shares W ra0 ra1 rc0 size).1
            (batch_make_sqcorr_shares W sa0 sa1 sc0 size).1 t
            (List.zipWith (wadd W)
              (verify_phase_1 W (batch_make_sqcorr_shares W ra0 ra1 rc0 size).1
                (batch_make_sqcorr_shares W sa0 sa1 sc0 size).1 t)
              (verify_phase_1 W (batch_make_sqcorr_shares W ra0 ra1 rc0 size).2
                (batch_make_sqcorr_shares W sa0 sa1 sc0 size).2 t))).getD i 0)
        ((verify_phase_2 W BOB
            (batch_make_sqcorr_shares W ra0 ra1 rc0 size).2
            (batch_make_sqcorr_shares W sa0 sa1 sc0 size).2 t
            (List.zipWith (wadd W)
              (verify_phase_1 W (batch_make_sqcorr_shares W ra0 ra1 rc0 size).1
                (batch_make_sqcorr_shares W sa0 sa1 sc0 size).1 t)
              (verify_phase_1 W (batch_make_sqcorr_shares W ra0 ra1 rc0 size).2
                (batch_make_sqcorr_shares W sa0 sa1 sc0 size).2 t))).getD i 0)
        = 0) ∧
    (wadd W
        ((verify_phase_2 W ALICE
            ((batch_make_sqcorr_shares W ra0 ra1 rc0 size).1.set k
              (((batch_make_sqcorr_shares W ra0 ra1 rc0 size).1.getD k (0, 0)).1,
                wadd W
                  (((batch_make_sqcorr_shares W ra0 ra1 rc0 size).1.getD k
                    (0, 0)).2) gamma))
            (batch_make_sqcorr_shares W sa0 sa1 sc0 size).1 t
            (List.zipWith (wadd W)
              (verify_phase_1 W
                ((batch_make_sqcorr_shares W ra0 ra1 rc0 size).1.set k
                  (((batch_make_sqcorr_shares W ra0 ra1 rc0 size).1.getD k
                      (0, 0)).1,
                    wadd W
                      (((batch_make_sqcorr_shares W ra0 ra1 rc0 size).1.getD k
                        (0, 0)).2) gamma))
                (batch_make_sqcorr_shares W sa0 sa1 sc0 size).1 t)
              (verify_phase_1 W (batch_make_sqcorr_shares W ra0 ra1 rc0 size).2
                (batch_make_sqcorr_shares W sa0 sa1 sc0 size).2 t))).getD k 0)
        ((verify_phase_2 W BOB
            (batch_make_sqcorr_shares W ra0 ra1 rc0 size).2
            (batch_make_sqcorr_shares W sa0 sa1 sc0 size).2 t
            (List.zipWith (wadd W)
              (verify_phase_1 W
                ((batch_make_sqcorr_shares W ra0 ra1 rc0 size).1.set k
                  (((batch_make_sqcorr_shares W ra0 ra1 rc0 size).1.getD k
                      (0, 0)).1,
                    wadd W
                      (((batch_make_sqcorr_shares W ra0 ra1 rc0 size).1.getD k
                        (0, 0)).2) gamma))
                (batch_make_sqcorr_shares W sa0 sa1 sc0 size).1 t)
              (verify_phase_1 W (batch_make_sqcorr_shares W ra0 ra1 rc0 size).2
                (batch_make_sqcorr_shares W sa0 sa1 sc0 size).2 t))).getD k 0)
      = wmul W (wmul W (t.getD k 0) (t.getD k 0)) gamma ∧
      wmul W (wmul W (t.getD k 0) (t.getD k 0)) gamma ≠ 0) := by
  obtain ⟨hc0, hc1⟩ := batch_make_length W ra0 ra1 rc0 size
  obtain ⟨hs0, hs1⟩ := batch_make_length W sa0 sa1 sc0 size
  have hp1len : ∀ (c s : List (Nat × Nat)), c.length = size → s.length = size →
      (verify_phase_1 W c s t).length = size := by
    intro c s h1 h2
    rw [verify_phase_1, zipWith3_length, h1, h2, ht]
    simp
  have hdgetD : ∀ (c0 c1 s0 s1 : List (Nat × Nat)), c0.length = size →
      c1.length = size → s0.length = size → s1.length = size →
      ∀ i, i < size →
      (List.zipWith (wadd W) (verify_phase_1 W c0 s0 t)
        (verify_phase_1 W c1 s1 t)).getD i 0 =
      wadd W (open_d W (t.getD i 0) (c0.getD i (0, 0)) (s0.getD i (0, 0)))
        (open_d W (t.getD i 0) (c1.getD i (0, 0)) (s1.getD i (0, 0))) := by
    intro c0 c1 s0 s1 h1 h2 h3 h4 i hi
    rw [zipWith_getD (wadd W) 0 0 0 _ _ i
        (by rw [hp1len c0 s0 h1 h3]; omega) (by rw [hp1len c1 s1 h2 h4]; omega)]
    unfold verify_phase_1
    rw [zipWith3_getD _ (0, 0) (0, 0) 0 0 c0 s0 t i (by omega) (by omega)
        (by omega),
      zipWith3_getD _ (0, 0) (0, 0) 0 0 c1 s1 t i (by omega) (by omega)
        (by omega)]
  have hp2getD : ∀ (party : Bool) (c s : List (Nat × Nat)) (d : List Nat),
      c.length = size → s.length = size → d.length = size →
      ∀ i, i < size →
      (verify_phase_2 W party c s t d).getD i 0 =
        open_w W party (t.getD i 0) (c.getD i (0, 0)) (s.getD i (0, 0))
          (d.getD i 0) := by
    intro party c s d h1 h2 h3 i hi
    unfold verify_phase_2
    rw [zipWith4_getD _ (0, 0) (0, 0) 0 0 0 _ _ _ _ i (by omega) (by omega)
      (by omega) (by omega)]
  have hdlen : ∀ (c0 c1 s0 s1 : List (Nat × Nat)), c0.length = size →
      c1.length = size → s0.length = size → s1.length = size →
      (List.zipWith (wadd W) (verify_phase_1 W c0 s0 t)
        (verify_phase_1 W c1 s1 t)).length = size := by
    intro c0 c1 s0 s1 h1 h2 h3 h4
    rw [List.length_zipWith, hp1len c0 s0 h1 h3, hp1len c1 s1 h2 h4]
    simp
  constructor
  · intro i hi
    rw [hp2getD ALICE _ _ _ hc0 hs0 (hdlen _ _ _ _ hc0 hc1 hs0 hs1) i hi,
      hp2getD BOB _ _ _ hc1 hs1 (hdlen _ _ _ _ hc0 hc1 hs0 hs1) i hi,
      hdgetD _ _ _ _ hc0 hc1 hs0 hs1 i hi]
    exact sqcorr_honest_single W (t.getD i 0) _ _ _ _
      (batch_make_valid W ra0 ra1 rc0 size i hi)
      (batch_make_valid W sa0 sa1 sc0 size i hi)
  · have hc0' : ((batch_make_sqcorr_shares W ra0 ra1 rc0 size).1.set k
        (((batch_make_sqcorr_shares W ra0 ra1 rc0 size).1.getD k (0, 0)).1,
          wadd W
            (((batch_make_sqcorr_shares W ra0 ra1 rc0 size).1.getD k
              (0, 0)).2) gamma)).length = size := by
      rw [List.length_set, hc0]
    have hgetset : ((batch_make_sqcorr_shares W ra0 ra1 rc0 size).1.set k
        (((batch_make_sqcorr_shares W ra0 ra1 rc0 size).1.getD k (0, 0)).1,
          wadd W
            (((batch_make_sqcorr_shares W ra0 ra1 rc0 size).1.getD k
              (0, 0)).2) gamma)).getD k (0, 0) =
        (((batch_make_sqcorr_shares W ra0 ra1 rc0 size).1.getD k (0, 0)).1,
          wadd W
            (((batch_make_sqcorr_shares W ra0 ra1 rc0 size).1.getD k
              (0, 0)).2) gamma) := by
      rw [List.getD_eq_getElem _ _ (by rw [List.length_set, hc0]; omega)]
      exact List.getElem_set_self _
    refine ⟨?_, wmul_odd_sq_ne_zero W (t.getD k 0) gamma hW hodd hγ⟩
    rw [hp2getD ALICE _ _ _ hc0' hs0 (hdlen _ _ _ _ hc0' hc1 hs0 hs1) k hk,
      hp2getD BOB _ _ _ hc1 hs1 (hdlen _ _ _ _ hc0' hc1 hs0 hs1) k hk,
      hdgetD _ _ _ _ hc0' hc1 hs0 hs1 k hk, hgetset]
    have hvalid0 := batch_make_valid W ra0 ra1 rc0 size k hk
    have hvalids := batch_make_valid W sa0 sa1 sc0 size k hk
    exact sqcorr_corrupt_single W (t.getD k 0) gamma _ _ _ _ hvalid0 hvalids


theorem c3_sqcorr_verify_witness :
    (wadd 2
        ((verify_phase_2 2 ALICE
            ((batch_make_sqcorr_shares 2 (fun _ => 0) (fun _ => 0) (fun _ => 0) 1).1.set 0
              (((batch_make_sqcorr_shares 2 (fun _ => 0) (fun _ => 0) (fun _ => 0) 1).1.getD 0 (0, 0)).1,
                wadd 2
                  (((batch_make_sqcorr_shares 2 (fun _ => 0) (fun _ => 0) (fun _ => 0) 1).1.getD 0
                    (0, 0)).2) 1))
            (batch_make_sqcorr_shares 2 (fun _ => 0) (fun _ => 0) (fun _ => 0) 1).1 [1]
            (List.zipWith (wadd 2)
              (verify_phase_1 2
                ((batch_make_sqcorr_shares 2 (fun _ => 0) (fun _ => 0) (fun _ => 0) 1).1.set 0
                  (((batch_make_sqcorr_shares 2 (fun _ => 0) (fun _ => 0) (fun _ => 0) 1).1.getD 0
                      (0, 0)).1,
                    wadd 2
                      (((batch_make_sqcorr_shares 2 (fun _ => 0) (fun _ => 0) (fun _ => 0) 1).1.getD 0
                        (0, 0)).2) 1))
                (batch_make_sqcorr_shares 2 (fun _ => 0) (fun _ => 0) (fun _ => 0) 1).1 [1])
              (verify_phase_1 2 (batch_make_sqcorr_shares 2 (fun _ => 0) (fun _ => 0) (fun _ => 0) 1).2
                (batch_make_sqcorr_shares 2 (fun _ => 0) (fun _ => 0) (fun _ => 0) 1).2 [1]))).getD 0 0)
        ((verify_phase_2 2 BOB
            (batch_make_sqcorr_shares 2 (fun _ => 0) (fun _ => 0) (fun _ => 0) 1).2
            (batch_make_sqcorr_shares 2 (fun _ => 0) (fun _ => 0) (fun _ => 0) 1).2 [1]
            (List.zipWith (wadd 2)
              (verify_phase_1 2
                ((batch_make_sqcorr_shares 2 (fun _ => 0) (fun _ => 0) (fun _ => 0) 1).1.set 0
                  (((batch_make_sqcorr_shares 2 (fun _ => 0) (fun _ => 0) (fun _ => 0) 1).1.getD 0
                      (0, 0)).1,
                    wadd 2
                      (((batch_make_sqcorr_shares 2 (fun _ => 0) (fun _ => 0) (fun _ => 0) 1).1.getD 0
                        (0, 0)).2) 1))
                (batch_make_sqcorr_shares 2 (fun _ => 0) (fun _ => 0) (fun _ => 0) 1).1 [1])
              (verify_phase_1 2 (batch_make_sqcorr_shares 2 (fun _ => 0) (fun _ => 0) (fun _ => 0) 1).2
                (batch_make_sqcorr_shares 2 (fun _ => 0) (fun _ => 0) (fun _ => 0) 1).2 [1]))).getD 0 0)
      = wmul 2 (wmul 2 ([1].getD 0 0) ([1].getD 0 0)) 1 ∧
      wmul 2 (wmul 2 ([1].getD 0 0) ([1].getD 0 0)) 1 ≠ 0) :=
  (c3_sqcorr_verify 2 (fun _ => 0) (fun _ => 0) (fun _ => 0) (fun _ => 0)
    (fun _ => 0) (fun _ => 0) 1 [1] 1 0 (by decide) (by decide) (by decide)
    (by decide) (by decide)).2

/-- Counterexample to C3 as stated: with the challenge `t = [0]` (an allowed
"challenge vector t"), corrupting Alice's `c` share of element 0 by 1 leaves
the opened `w` sum equal to zero — the corruption is not detected.  The
detection guarantee therefore requires the challenge to be odd (as
`sample_odd_t` produces), which is the amended claim. -/
theorem c3_sqcorr_counterexample :
    wadd 2
        ((verify_phase_2 2 ALICE
            ((batch_make_sqcorr_shares 2 (fun _ => 0) (fun _ => 0) (fun _ => 0) 1).1.set 0
              (((batch_make_sqcorr_shares 2 (fun _ => 0) (fun _ => 0) (fun _ => 0) 1).1.getD 0 (0, 0)).1,
                wadd 2
                  (((batch_make_sqcorr_shares 2 (fun _ => 0) (fun _ => 0) (fun _ => 0) 1).1.getD 0
                    (0, 0)).2) 1))
            (batch_make_sqcorr_shares 2 (fun _ => 0) (fun _ => 0) (fun _ => 0) 1).1 [0]
            (List.zipWith (wadd 2)
              (verify_phase_1 2
                ((batch_make_sqcorr_shares 2 (fun _ => 0) (fun _ => 0) (fun _ => 0) 1).1.set 0
                  (((batch_make_sqcorr_shares 2 (fun _ => 0) (fun _ => 0) (fun _ => 0) 1).1.getD 0
                      (0, 0)).1,
                    wadd 2
                      (((batch_make_sqcorr_shares 2 (fun _ => 0) (fun _ => 0) (fun _ => 0) 1).1.getD 0
                        (0, 0)).2) 1))
                (batch_make_sqcorr_shares 2 (fun _ => 0) (fun _ => 0) (fun _ => 0) 1).1 [0])
              (verify_phase_1 2 (batch_make_sqcorr_shares 2 (fun _ => 0) (fun _ => 0) (fun _ => 0) 1).2
                (batch_make_sqcorr_shares 2 (fun _ => 0) (fun _ => 0) (fun _ => 0) 1).2 [0]))).getD 0 0)
        ((verify_phase_2 2 BOB
            (batch_make_sqcorr_shares 2 (fun _ => 0) (fun _ => 0) (fun _ => 0) 1).2
            (batch_make_sqcorr_shares 2 (fun _ => 0) (fun _ => 0) (fun _ => 0) 1).2 [0]
            (List.zipWith (wadd 2)
              (verify_phase_1 2
                ((batch_make_sqcorr_shares 2 (fun _ => 0) (fun _ => 0) (fun _ => 0) 1).1.set 0
                  (((batch_make_sqcorr_shares 2 (fun _ => 0) (fun _ => 0) (fun _ => 0) 1).1.getD 0
                      (0, 0)).1,
                    wadd 2
                      (((batch_make_sqcorr_shares 2 (fun _ => 0) (fun _ => 0) (fun _ => 0) 1).1.getD 0
                        (0, 0)).2) 1))
                (batch_make_sqcorr_shares 2 (fun _ => 0) (fun _ => 0) (fun _ => 0) 1).1 [0])
              (verify_phase_1 2 (batch_make_sqcorr_shares 2 (fun _ => 0) (fun _ => 0) (fun _ => 0) 1).2
                (batch_make_sqcorr_shares 2 (fun _ => 0) (fun _ => 0) (fun _ => 0) 1).2 [0]))).getD 0 0)
      = 0 := by decide

/-! ### Transport rendezvous maps (`tcp_bridge.rs`, `mpc_conn.rs`)

Per connection the read side keeps two maps keyed by `RecvId`:
`pending_subscribe` (parked one-shot senders, identified here by an opaque
token) and `pending_message` (payloads that arrived before a subscriber).
The reader task and the subscribe path manipulate them under one mutex; each
critical section is a pure state transition, embedded below. -/

/-- The two rendezvous maps of one connection. -/
structure PendingState where
  pendingSubscribe : Nat → Option Nat
  pendingMessage : Nat → Option (List Nat)

/-- Outcome of a subscribe operation. -/
inductive SubOutcome where
  | ready (payload : List Nat)
  | parked
  | panicked
  deriving DecidableEq

/-- The reader task's per-frame critical section (identical in
`TcpConnection`'s read loop and `MpcConnection`'s read loop): if a subscriber
is parked on the id, remove it and resolve it with the payload; otherwise
buffer the payload in `pending_message`. -/
def reader_deliver (s : PendingState) (id : Nat) (payload : List Nat) :
    PendingState × Option (Nat × List Nat) :=
  match s.pendingSubscribe id with
  | some tok =>
      ({ s with pendingSubscribe := fun i => if i = id then none
          else s.pendingSubscribe i },
        some (tok, payload))
  | none =>
      ({ s with pendingMessage := fun i => if i = id then some payload
          else s.pendingMessage i },
        none)

/-- `TcpConnection`'s subscribe loop body: take a buffered payload if one is
present, else park the new subscriber — `HashMap::insert`, which silently
REPLACES any subscriber already parked on the id (the replaced one-shot is
dropped). -/
def tcp_subscribe (s : PendingState) (id tok : Nat) :
    PendingState × SubOutcome :=
  match s.pendingMessage id with
  | some v =>
      ({ s with pendingMessage := fun i => if i = id then none
          else s.pendingMessage i },
        .ready v)
  | none =>
      ({ s with pendingSubscribe := fun i => if i = id then some tok
          else s.pendingSubscribe i },
        .parked)

/-- `MpcConnection::subscribe_and_get_bytes` critical section: take a
buffered payload if present; otherwise park, but `panic!` if a subscriber is
already parked on the id ("duplicate id got subscribed"). -/
def mpc_subscribe (s : PendingState) (id tok : Nat) :
    PendingState × SubOutcome :=
  match s.pendingMessage id with
  | some v =>
      ({ s with pendingMessage := fun i => if i = id then none
          else s.pendingMessage i },
        .ready v)
  | none =>
      match s.pendingSubscribe id with
      | some _ => (s, .panicked)
      | none =>
          ({ s with pendingSubscribe := fun i => if i = id then some tok
              else s.pendingSubscribe i },
            .parked)

/-- Counterexample to C6 as stated: on the client bridge (`TcpConnection`) a
duplicate subscription does NOT panic — the new subscriber silently replaces
the parked one.  Concretely, with subscriber token 1 already parked on id 5
and no buffered message, a second subscribe with token 2 parks (outcome
`parked`, not `panicked`) and overwrites the map entry, while the same state
on the server-to-server `MpcConnection` panics. -/
theorem c6_subscribe_counterexample :
    (tcp_subscribe
        ⟨fun i => if i = 5 then some 1 else none, fun _ => none⟩ 5 2).2 ≠
      SubOutcome.panicked ∧
    (tcp_subscribe
        ⟨fun i => if i = 5 then some 1 else none, fun _ => none⟩ 5
        2).1.pendingSubscribe 5 = some 2 ∧
    (mpc_subscribe
        ⟨fun i => if i = 5 then some 1 else none, fun _ => none⟩ 5 2).2 =
      SubOutcome.panicked := by
  refine ⟨?_, rfl, rfl⟩
  intro h
  exact absurd h (by decide)

/-- C6 (amended): only the server-to-server transport (`MpcConnection`)
treats a duplicate subscription as a fatal programmer error: with a
subscriber already parked on an id and no buffered message,
`subscribe_and_get_bytes` panics.  The client bridge (`TcpConnection`) does
not panic: the duplicate subscription parks and silently replaces the
previously parked subscriber, whose one-shot sender is dropped. -/
theorem c6_duplicate_subscription (s : PendingState) (id tok tok0 : Nat)
    (hdup : s.pendingSubscribe id = some tok0)
    (hmsg : s.pendingMessage id = none) :
    (mpc_subscribe s id tok).2 = SubOutcome.panicked ∧
    (mpc_subscribe s id tok).1 = s ∧
    (tcp_subscribe s id tok).2 = SubOutcome.parked ∧
    (tcp_subscribe s id tok).1.pendingSubscribe id = some tok := by
  unfold mpc_subscribe tcp_subscribe
  rw [hdup, hmsg]
  exact ⟨rfl, rfl, rfl, by simp⟩

theorem c6_duplicate_subscription_witness :
    (mpc_subscribe ⟨fun i => if i = 5 then some 1 else none, fun _ => none⟩
        5 2).2 = SubOutcome.panicked ∧
    (mpc_subscribe ⟨fun i => if i = 5 then some 1 else none, fun _ => none⟩
        5 2).1 = ⟨fun i => if i = 5 then some 1 else none, fun _ => none⟩ ∧
    (tcp_subscribe ⟨fun i => if i = 5 then some 1 else none, fun _ => none⟩
        5 2).2 = SubOutcome.parked ∧
    (tcp_subscribe ⟨fun i => if i = 5 then some 1 else none, fun _ => none⟩
        5 2).1.pendingSubscribe 5 = some 2 :=
  c6_duplicate_subscription
    ⟨fun i => if i = 5 then some 1 else none, fun _ => none⟩ 5 2 1 rfl rfl

/-- C7: order independence of the rendezvous maps, on both transports.  For
one connection and one message id with nothing pending on that id:
delivering the frame before the subscription hands the subscriber the
payload immediately (`ready`), and subscribing before the frame parks the
subscriber and the later delivery resolves exactly that subscriber with
exactly that payload; in both orders the id is left clean in both maps.
Moreover (for an arbitrary state `s2`) the reader buffers into
`pending_message` exactly when no subscriber waits on the id, and a
subscribe consumes a buffered payload or else parks. -/
theorem c7_rendezvous_order_independence (s s2 : PendingState)
    (id tok t0 : Nat) (payload v : List Nat)
    (hsub : s.pendingSubscribe id = none)
    (hmsg : s.pendingMessage id = none) :
    -- send-before-subscribe (tcp)
    ((tcp_subscribe (reader_deliver s id payload).1 id tok).2 =
        SubOutcome.ready payload ∧
      (tcp_subscribe (reader_deliver s id payload).1 id
          tok).1.pendingMessage id = none ∧
      (tcp_subscribe (reader_deliver s id payload).1 id
          tok).1.pendingSubscribe id = none) ∧
    -- subscribe-before-send (tcp)
    ((tcp_subscribe s id tok).2 = SubOutcome.parked ∧
      (reader_deliver (tcp_subscribe s id tok).1 id payload).2 =
        some (tok, payload) ∧
      (reader_deliver (tcp_subscribe s id tok).1 id
          payload).1.pendingMessage id = none ∧
      (reader_deliver (tcp_subscribe s id tok).1 id
          payload).1.pendingSubscribe id = none) ∧
    -- the same two orders on the MPC connection
    ((mpc_subscribe (reader_deliver s id payload).1 id tok).2 =
        SubOutcome.ready payload ∧
      (mpc_subscribe s id tok).2 = SubOutcome.parked ∧
      (reader_deliver (mpc_subscribe s id tok).1 id payload).2 =
        some (tok, payload)) ∧
    -- reader buffers exactly when no subscriber waits; subscribe takes the
    -- buffered payload or else parks
    ((s2.pendingSubscribe id = none →
        (reader_deliver s2 id payload).1.pendingMessage id = some payload ∧
        (reader_deliver s2 id payload).2 = none) ∧
      (s2.pendingSubscribe id = some t0 →
        (reader_deliver s2 id payload).1.pendingMessage =
          s2.pendingMessage ∧
        (reader_deliver s2 id payload).2 = some (t0, payload)) ∧
      (s2.pendingMessage id = some v →
        (tcp_subscribe s2 id tok).2 = SubOutcome.ready v) ∧
      (s2.pendingMessage id = none →
        (tcp_subscribe s2 id tok).2 = SubOutcome.parked ∧
        (tcp_subscribe s2 id tok).1.pendingSubscribe id = some tok)) := by
  refine ⟨?_, ?_, ?_, ?_, ?_, ?_, ?_⟩
  · simp [reader_deliver, tcp_subscribe, hsub, hmsg]
  · simp [reader_deliver, tcp_subscribe, hsub, hmsg]
  · simp [reader_deliver, mpc_subscribe, hsub, hmsg]
  · intro h0
    simp [reader_deliver, h0]
  · intro h0
    simp [reader_deliver, h0]
  · intro h0
    simp [tcp_subscribe, h0]
  · intro h0
    simp [tcp_subscribe, h0]

theorem c7_rendezvous_order_independence_witness :
    ((tcp_subscribe (reader_deliver ⟨fun _ => none, fun _ => none⟩ 7
          [1, 2]).1 7 4).2 = SubOutcome.ready [1, 2] ∧
      (tcp_subscribe (reader_deliver ⟨fun _ => none, fun _ => none⟩ 7
          [1, 2]).1 7 4).1.pendingMessage 7 = none ∧
      (tcp_subscribe (reader_deliver ⟨fun _ => none, fun _ => none⟩ 7
          [1, 2]).1 7 4).1.pendingSubscribe 7 = none) ∧
    ((tcp_subscribe ⟨fun _ => none, fun _ => none⟩ 7 4).2 =
        SubOutcome.parked ∧
      (reader_deliver (tcp_subscribe ⟨fun _ => none, fun _ => none⟩ 7 4).1 7
          [1, 2]).2 = some (4, [1, 2]) ∧
      (reader_deliver (tcp_subscribe ⟨fun _ => none, fun _ => none⟩ 7 4).1 7
          [1, 2]).1.pendingMessage 7 = none ∧
      (reader_deliver (tcp_subscribe ⟨fun _ => none, fun _ => none⟩ 7 4).1 7
          [1, 2]).1.pendingSubscribe 7 = none) ∧
    ((mpc_subscribe (reader_deliver ⟨fun _ => none, fun _ => none⟩ 7
          [1, 2]).1 7 4).2 = SubOutcome.ready [1, 2] ∧
      (mpc_subscribe ⟨fun _ => none, fun _ => none⟩ 7 4).2 =
        SubOutcome.parked ∧
      (reader_deliver (mpc_subscribe ⟨fun _ => none, fun _ => none⟩ 7 4).1 7
          [1, 2]).2 = some (4, [1, 2])) ∧
    (((⟨fun _ => none, fun _ => none⟩ : PendingState).pendingSubscribe 7 =
          none →
        (reader_deliver ⟨fun _ => none, fun _ => none⟩ 7
            [1, 2]).1.pendingMessage 7 = some [1, 2] ∧
        (reader_deliver ⟨fun _ => none, fun _ => none⟩ 7 [1, 2]).2 = none) ∧
      ((⟨fun _ => none, fun _ => none⟩ : PendingState).pendingSubscribe 7 =
          some 9 →
        (reader_deliver ⟨fun _ => none, fun _ => none⟩ 7
            [1, 2]).1.pendingMessage =
          (⟨fun _ => none, fun _ => none⟩ : PendingState).pendingMessage ∧
        (reader_deliver ⟨fun _ => none, fun _ => none⟩ 7 [1, 2]).2 =
          some (9, [1, 2])) ∧
      ((⟨fun _ => none, fun _ => none⟩ : PendingState).pendingMessage 7 =
          some [3] →
        (tcp_subscribe ⟨fun _ => none, fun _ => none⟩ 7 4).2 =
          SubOutcome.ready [3]) ∧
      ((⟨fun _ => none, fun _ => none⟩ : PendingState).pendingMessage 7 =
          none →
        (tcp_subscribe ⟨fun _ => none, fun _ => none⟩ 7 4).2 =
          SubOutcome.parked ∧
        (tcp_subscribe ⟨fun _ => none, fun _ => none⟩ 7
            4).1.pendingSubscribe 7 = some 4)) :=
  c7_rendezvous_order_independence ⟨fun _ => none, fun _ => none⟩
    ⟨fun _ => none, fun _ => none⟩ 7 4 9 [1, 2] [3] rfl rfl

/-! ### Message-id generation (`id_tracker.rs`) -/

/-- Message id 0 is reserved for the registration message. -/
def REGISTER_MESSAGE_ID : Nat := 0

/-- Ordinary message ids start at 1. -/
def COMMON_MESSAGE_ID_START : Nat := 1

/-- `IdGen`: the four `u64` cursors.  Values are modelled as `Nat`; the
bound checks below stop every cursor at its bound, so no cursor ever
exceeds `u64::MAX` when started within range. -/
structure IdGen where
  nextSendId : Nat
  nextRecvId : Nat
  nextSendIdBound : Nat
  nextRecvIdBound : Nat
  deriving DecidableEq

/-- `IdGen::new`: cursors at `COMMON_MESSAGE_ID_START`, bounds at
`u64::MAX`. -/
def IdGen.new : IdGen :=
  ⟨COMMON_MESSAGE_ID_START, COMMON_MESSAGE_ID_START, 2 ^ 64 - 1, 2 ^ 64 - 1⟩

/-- `IdGen::next_send_id`: panic (`none`) when the cursor has reached the
bound, else hand out the cursor and advance it. -/
def IdGen.nextSend (g : IdGen) : Option (Nat × IdGen) :=
  if g.nextSendId = g.nextSendIdBound then none
  else some (g.nextSendId, { g with nextSendId := g.nextSendId + 1 })

/-- `IdGen::next_recv_id`. -/
def IdGen.nextRecv (g : IdGen) : Option (Nat × IdGen) :=
  if g.nextRecvId = g.nextRecvIdBound then none
  else some (g.nextRecvId, { g with nextRecvId := g.nextRecvId + 1 })

/-- `IdGen::reserve_rounds`: returns (reserved sub-generator, updated
parent); the reserved generator can produce `num_rounds` ids of each kind,
the parent skips past the reserved range. -/
def IdGen.reserveRounds (g : IdGen) (numRounds : Nat) : IdGen × IdGen :=
  (⟨g.nextSendId, g.nextRecvId, g.nextSendId + numRounds,
      g.nextRecvId + numRounds⟩,
    { g with
        nextSendId := g.nextSendId + numRounds,
        nextRecvId := g.nextRecvId + numRounds })

/-- Any sequence of operations performed on a generator (handing out send
ids, receive ids, or reserving further sub-ranges). -/
inductive Evolves : IdGen → IdGen → Prop where
  | refl (g : IdGen) : Evolves g g
  | send {g g1 g2 : IdGen} {i : Nat} :
      Evolves g g1 → g1.nextSend = some (i, g2) → Evolves g g2
  | recv {g g1 g2 : IdGen} {i : Nat} :
      Evolves g g1 → g1.nextRecv = some (i, g2) → Evolves g g2
  | reserve {g g1 : IdGen} (n : Nat) :
      Evolves g g1 → Evolves g ((g1.reserveRounds n).2)

/-- A sequence of direct `next_send_id` / `next_recv_id` calls (how a
reserved generator is used). -/
inductive EvolvesSR : IdGen → IdGen → Prop where
  | refl (g : IdGen) : EvolvesSR g g
  | send {g g1 g2 : IdGen} {i : Nat} :
      EvolvesSR g g1 → g1.nextSend = some (i, g2) → EvolvesSR g g2
  | recv {g g1 g2 : IdGen} {i : Nat} :
      EvolvesSR g g1 → g1.nextRecv = some (i, g2) → EvolvesSR g g2

theorem nextSend_some {g g2 : IdGen} {i : Nat}
    (h : g.nextSend = some (i, g2)) :
    i = g.nextSendId ∧ g2.nextSendId = g.nextSendId + 1 ∧
    g2.nextRecvId = g.nextRecvId ∧
    g2.nextSendIdBound = g.nextSendIdBound ∧
    g2.nextRecvIdBound = g.nextRecvIdBound ∧
    g.nextSendId ≠ g.nextSendIdBound := by
  unfold IdGen.nextSend at h
  by_cases hc : g.nextSendId = g.nextSendIdBound
  · rw [if_pos hc] at h
    exact absurd h (by simp)
  · rw [if_neg hc] at h
    obtain ⟨h1, h2⟩ := Prod.mk.injEq .. ▸ Option.some.injEq .. ▸ h
    subst h1
    rw [← h2]
    exact ⟨rfl, rfl, rfl, rfl, rfl, hc⟩

theorem nextRecv_some {g g2 : IdGen} {i : Nat}
    (h : g.nextRecv = some (i, g2)) :
    i = g.nextRecvId ∧ g2.nextRecvId = g.nextRecvId + 1 ∧
    g2.nextSendId = g.nextSendId ∧
    g2.nextSendIdBound = g.nextSendIdBound ∧
    g2.nextRecvIdBound = g.nextRecvIdBound ∧
    g.nextRecvId ≠ g.nextRecvIdBound := by
  unfold IdGen.nextRecv at h
  by_cases hc : g.nextRecvId = g.nextRecvIdBound
  · rw [if_pos hc] at h
    exact absurd h (by simp)
  · rw [if_neg hc] at h
    obtain ⟨h1, h2⟩ := Prod.mk.injEq .. ▸ Option.some.injEq .. ▸ h
    subst h1
    rw [← h2]
    exact ⟨rfl, rfl, rfl, rfl, rfl, hc⟩

/-- Cursors only move forward under any operation sequence. -/
theorem evolves_mono {g g' : IdGen} (h : Evolves g g') :
    g.nextSendId ≤ g'.nextSendId ∧ g.nextRecvId ≤ g'.nextRecvId := by
  induction h with
  | refl => exact ⟨le_refl _, le_refl _⟩
  | send _ hs ih =>
    obtain ⟨_, h2, h3, _, _, _⟩ := nextSend_some hs
    omega
  | recv _ hr ih =>
    obtain ⟨_, h2, h3, _, _, _⟩ := nextRecv_some hr
    omega
  | reserve n _ ih =>
    simp only [IdGen.reserveRounds]
    omega

/-- Under direct use, a reserved generator keeps its bounds and its cursors
never pass them. -/
theorem evolvesSR_inv {r r' : IdGen} (h : EvolvesSR r r')
    (hs : r.nextSendId ≤ r.nextSendIdBound)
    (hr : r.nextRecvId ≤ r.nextRecvIdBound) :
    r'.nextSendIdBound = r.nextSendIdBound ∧
    r'.nextRecvIdBound = r.nextRecvIdBound ∧
    r'.nextSendId ≤ r.nextSendIdBound ∧
    r'.nextRecvId ≤ r.nextRecvIdBound := by
  induction h with
  | refl => exact ⟨rfl, rfl, hs, hr⟩
  | send _ hstep ih =>
    obtain ⟨_, h2, h3, h4, h5, h6⟩ := nextSend_some hstep
    omega
  | recv _ hstep ih =>
    obtain ⟨_, h2, h3, h4, h5, h6⟩ := nextRecv_some hstep
    omega

/-- Iterated `next_send_id`. -/
def sendN (g : IdGen) : Nat → Option IdGen
  | 0 => some g
  | k + 1 =>
      match g.nextSend with
      | some (_, g1) => sendN g1 k
      | none => none

/-- Iterated `next_recv_id`. -/
def recvN (g : IdGen) : Nat → Option IdGen
  | 0 => some g
  | k + 1 =>
      match g.nextRecv with
      | some (_, g1) => recvN g1 k
      | none => none

theorem sendN_ok : ∀ (k : Nat) (g : IdGen),
    g.nextSendId + k ≤ g.nextSendIdBound →
    ∃ g', sendN g k = some g' ∧ g'.nextSendId = g.nextSendId + k ∧
      g'.nextSendIdBound = g.nextSendIdBound := by
  intro k
  induction k with
  | zero => intro g _; exact ⟨g, rfl, by omega, rfl⟩
  | succ k ih =>
    intro g hg
    have hne : g.nextSendId ≠ g.nextSendIdBound := by omega
    have hstep : g.nextSend =
        some (g.nextSendId, { g with nextSendId := g.nextSendId + 1 }) := by
      unfold IdGen.nextSend
      rw [if_neg hne]
    obtain ⟨g', hg', h1, h2⟩ := ih { g with nextSendId := g.nextSendId + 1 }
      (by simp; omega)
    refine ⟨g', ?_, by simp at h1; omega, by simpa using h2⟩
    unfold sendN
    rw [hstep]
    exact hg'

theorem recvN_ok : ∀ (k : Nat) (g : IdGen),
    g.nextRecvId + k ≤ g.nextRecvIdBound →
    ∃ g', recvN g k = some g' ∧ g'.nextRecvId = g.nextRecvId + k ∧
      g'.nextRecvIdBound = g.nextRecvIdBound := by
  intro k
  induction k with
  | zero => intro g _; exact ⟨g, rfl, by omega, rfl⟩
  | succ k ih =>
    intro g hg
    have hne : g.nextRecvId ≠ g.nextRecvIdBound := by omega
    have hstep : g.nextRecv =
        some (g.nextRecvId, { g with nextRecvId := g.nextRecvId + 1 }) := by
      unfold IdGen.nextRecv
      rw [if_neg hne]
    obtain ⟨g', hg', h1, h2⟩ := ih { g with nextRecvId := g.nextRecvId + 1 }
      (by simp; omega)
    refine ⟨g', ?_, by simp at h1; omega, by simpa using h2⟩
    unfold recvN
    rw [hstep]
    exact hg'

/-- C10: IdGen range reservation keeps message ids unique: after
`r = g.reserve_rounds n`, every send or receive id subsequently produced by
the parent `g` is strictly greater than every id `r` can ever produce
(through direct `next_send_id`/`next_recv_id` use); `r` produces at most `n`
send ids and at most `n` receive ids and panics on the next request beyond
that bound; and no generator evolved from `IdGen::new` ever produces the
reserved registration id 0 — allocation starts at 1 and is strictly
increasing within each generator.  All possible later uses are quantified by
the `Evolves`/`EvolvesSR` step relations. -/
theorem c10_idgen_reservation (g : IdGen) (n : Nat)
    (h hg2 r1 r2 : IdGen) (i j : Nat)
    (hpe : Evolves (g.reserveRounds n).2 h)
    (hps : h.nextSend = some (i, hg2))
    (hre : EvolvesSR (g.reserveRounds n).1 r1)
    (hrs : r1.nextSend = some (j, r2))
    (h2 hg4 r3 r4 : IdGen) (i2 j2 : Nat)
    (hpe2 : Evolves (g.reserveRounds n).2 h2)
    (hpr : h2.nextRecv = some (i2, hg4))
    (hre2 : EvolvesSR (g.reserveRounds n).1 r3)
    (hrr : r3.nextRecv = some (j2, r4))
    (rn rm : IdGen)
    (hrn : sendN (g.reserveRounds n).1 n = some rn)
    (hrm : recvN (g.reserveRounds n).1 n = some rm)
    (g0 g0' g0'' g0r g0r' : IdGen) (i0 i1 i0r : Nat)
    (hg0 : Evolves IdGen.new g0)
    (hs0 : g0.nextSend = some (i0, g0'))
    (hs1 : g0'.nextSend = some (i1, g0''))
    (hg0r : Evolves IdGen.new g0r)
    (hr0 : g0r.nextRecv = some (i0r, g0r')) :
    j < i ∧ j2 < i2 ∧
    rn.nextSend = none ∧ rm.nextRecv = none ∧
    REGISTER_MESSAGE_ID < i0 ∧ REGISTER_MESSAGE_ID < i0r ∧ i0 < i1 := by
  have hrsub : (g.reserveRounds n).1 =
      ⟨g.nextSendId, g.nextRecvId, g.nextSendId + n, g.nextRecvId + n⟩ := rfl
  have hrpar : (g.reserveRounds n).2.nextSendId = g.nextSendId + n := rfl
  have hrpar2 : (g.reserveRounds n).2.nextRecvId = g.nextRecvId + n := rfl
  refine ⟨?_, ?_, ?_, ?_, ?_, ?_, ?_⟩
  · obtain ⟨hb1, hb2, hc1, hc2⟩ := evolvesSR_inv hre
      (by rw [hrsub]; simp) (by rw [hrsub]; simp)
    obtain ⟨hj, _, _, _, _, hjne⟩ := nextSend_some hrs
    obtain ⟨hi, _, _, _, _, _⟩ := nextSend_some hps
    have hmono := (evolves_mono hpe).1
    rw [hrpar] at hmono
    rw [hrsub] at hb1 hc1
    simp at hb1 hc1
    omega
  · obtain ⟨hb1, hb2, hc1, hc2⟩ := evolvesSR_inv hre2
      (by rw [hrsub]; simp) (by rw [hrsub]; simp)
    obtain ⟨hj, _, _, _, _, hjne⟩ := nextRecv_some hrr
    obtain ⟨hi, _, _, _, _, _⟩ := nextRecv_some hpr
    have hmono := (evolves_mono hpe2).2
    rw [hrpar2] at hmono
    rw [hrsub] at hb2 hc2
    simp at hb2 hc2
    omega
  · obtain ⟨g', hg', h1, h2⟩ := sendN_ok n (g.reserveRounds n).1
      (by rw [hrsub])
    rw [hrn] at hg'
    obtain rfl : g' = rn := by simpa using hg'.symm
    rw [hrsub] at h1 h2
    simp at h1 h2
    unfold IdGen.nextSend
    rw [if_pos (by omega)]
  · obtain ⟨g', hg', h1, h2⟩ := recvN_ok n (g.reserveRounds n).1
      (by rw [hrsub])
    rw [hrm] at hg'
    obtain rfl : g' = rm := by simpa using hg'.symm
    rw [hrsub] at h1 h2
    simp at h1 h2
    unfold IdGen.nextRecv
    rw [if_pos (by omega)]
  · obtain ⟨hi0, _, _, _, _, _⟩ := nextSend_some hs0
    have hmono := (evolves_mono hg0).1
    have hnew : IdGen.new.nextSendId = 1 := rfl
    unfold REGISTER_MESSAGE_ID
    omega
  · obtain ⟨hi0, _, _, _, _, _⟩ := nextRecv_some hr0
    have hmono := (evolves_mono hg0r).2
    have hnew : IdGen.new.nextRecvId = 1 := rfl
    unfold REGISTER_MESSAGE_ID
    omega
  · obtain ⟨hi0, hsucc, _, _, _, _⟩ := nextSend_some hs0
    obtain ⟨hi1, _, _, _, _, _⟩ := nextSend_some hs1
    omega

theorem c10_idgen_reservation_witness :
    (1 : Nat) < 3 ∧ (1 : Nat) < 3 ∧
    (⟨3, 1, 3, 3⟩ : IdGen).nextSend = none ∧
    (⟨1, 3, 3, 3⟩ : IdGen).nextRecv = none ∧
    REGISTER_MESSAGE_ID < 1 ∧ REGISTER_MESSAGE_ID < 1 ∧ (1 : Nat) < 2 :=
  c10_idgen_reservation IdGen.new 2
    (IdGen.new.reserveRounds 2).2 ⟨4, 3, 2 ^ 64 - 1, 2 ^ 64 - 1⟩
    (IdGen.new.reserveRounds 2).1 ⟨2, 1, 3, 3⟩ 3 1
    (Evolves.refl _) (by decide) (EvolvesSR.refl _) (by decide)
    (IdGen.new.reserveRounds 2).2 ⟨3, 4, 2 ^ 64 - 1, 2 ^ 64 - 1⟩
    (IdGen.new.reserveRounds 2).1 ⟨1, 2, 3, 3⟩ 3 1
    (Evolves.refl _) (by decide) (EvolvesSR.refl _) (by decide)
    ⟨3, 1, 3, 3⟩ ⟨1, 3, 3, 3⟩ (by decide) (by decide)
    IdGen.new ⟨2, 1, 2 ^ 64 - 1, 2 ^ 64 - 1⟩ ⟨3, 1, 2 ^ 64 - 1, 2 ^ 64 - 1⟩
    IdGen.new ⟨1, 2, 2 ^ 64 - 1, 2 ^ 64 - 1⟩ 1 2 1
    (Evolves.refl _) (by decide) (by decide) (Evolves.refl _) (by decide)

/-! ### Bit multiplication and B2A (`bitmul.rs`, `b2a.rs`, `cot/rot.rs`) -/

/-- General form of the ring-cast lemmas: any `ZMod M` with `M ∣ 2^WA`
absorbs the width-`WA` wrapping. -/
theorem wadd_cast_dvd {M WA : Nat} (h : M ∣ 2 ^ WA) (a b : Nat) :
    ((wadd WA a b : Nat) : ZMod M) = (a : ZMod M) + b := by
  unfold wadd
  rw [natCast_mod_zmod_dvd WA h]
  push_cast
  ring

theorem wsub_cast_dvd {M WA : Nat} (h : M ∣ 2 ^ WA) (a b : Nat) :
    ((wsub WA a b : Nat) : ZMod M) = (a : ZMod M) - b := by
  unfold wsub
  rw [natCast_mod_zmod_dvd WA h]
  have h0 : ((2 ^ WA : Nat) : ZMod M) = 0 :=
    (ZMod.natCast_zmod_eq_zero_iff_dvd _ _).mpr h
  push_cast at h0
  have hle : b % 2 ^ WA ≤ 2 ^ WA :=
    le_of_lt (Nat.mod_lt _ (Nat.pos_pow_of_pos _ (by norm_num)))
  push_cast [hle]
  rw [h0, natCast_mod_zmod_dvd WA h]
  ring

theorem wneg_cast_dvd {M WA : Nat} (h : M ∣ 2 ^ WA) (a : Nat) :
    ((wneg WA a : Nat) : ZMod M) = -(a : ZMod M) := by
  unfold wneg
  rw [natCast_mod_zmod_dvd WA h]
  have h0 : ((2 ^ WA : Nat) : ZMod M) = 0 :=
    (ZMod.natCast_zmod_eq_zero_iff_dvd _ _).mpr h
  push_cast at h0
  have hle : a % 2 ^ WA ≤ 2 ^ WA :=
    le_of_lt (Nat.mod_lt _ (Nat.pos_pow_of_pos _ (by norm_num)))
  push_cast [hle]
  rw [h0, natCast_mod_zmod_dvd WA h]
  ring

/-- `bit_mul_as_ot_sender` (ring width `WA`, sub-ring `2^j`): returns
`(y0, u) = ((-v0) mod 2^j, (v0 + v1 + x0) mod 2^j)`.  `modulo_2_power j` is
the mask `(1 << j) - 1`, i.e. `% 2^j` for the exercised `j < WA`. -/
def bit_mul_as_ot_sender (WA j : Nat) (x0 : Bool) (v0 v1 : Nat) : Nat × Nat :=
  (wneg WA v0 % 2 ^ j, wadd WA (wadd WA v0 v1) (Bool.toNat x0) % 2 ^ j)

/-- `bit_mul_as_ot_receiver`: `y1 = (x1 ? u - v : v) mod 2^j`. -/
def bit_mul_as_ot_receiver (WA j : Nat) (x1 : Bool) (v u : Nat) : Nat :=
  if x1 then wsub WA u v % 2 ^ j else v % 2 ^ j

/-- Per-bit correctness: with the receiver holding the selected ROT value,
`y0 + y1 = x0 AND x1` modulo `2^j`. -/
theorem bit_mul_sum_mod (WA j : Nat) (hj : j ≤ WA) (x0 x1 : Bool)
    (v0 v1 : Nat) :
    ((bit_mul_as_ot_sender WA j x0 v0 v1).1 +
        bit_mul_as_ot_receiver WA j x1 (if x1 then v1 else v0)
          (bit_mul_as_ot_sender WA j x0 v0 v1).2)
      ≡ Bool.toNat (x0 && x1) [MOD 2 ^ j] := by
  have hdvd : (2 : Nat) ^ j ∣ 2 ^ WA := Nat.pow_dvd_pow 2 hj
  rw [← ZMod.natCast_eq_natCast_iff]
  unfold bit_mul_as_ot_sender bit_mul_as_ot_receiver
  cases x1
  · rw [if_neg (by simp), if_neg (by simp), Bool.and_false]
    push_cast
    simp only [natCast_mod_zmod, wneg_cast_dvd hdvd, wadd_cast_dvd hdvd,
      wsub_cast_dvd hdvd]
    simp
  · rw [if_pos rfl, if_pos rfl, Bool.and_true]
    push_cast
    simp only [natCast_mod_zmod, wneg_cast_dvd hdvd, wadd_cast_dvd hdvd,
      wsub_cast_dvd hdvd]
    cases x0 <;> simp <;> ring

/-- The loop body of `bit_comp_as_ot_sender_single`: iterate over the input
bits (little-endian) with bit index `i` and accumulator `z`; each step runs
`bit_mul_as_ot_sender` on ring `2^lp` with `lp = WA - (i+1)`, emits `u`, and
accumulates `z += (x0 - 2*y0) << i` (all wrapping in width `WA`). -/
def b2aSenderGo (WA : Nat) :
    Nat → Nat → List Bool → List Nat → List Nat → Nat × List Nat
  | i, z, x :: xs, v0 :: v0s, v1 :: v1s =>
      let lp := WA - (i + 1)
      let yu := bit_mul_as_ot_sender WA lp x v0 v1
      let t := wsub WA (Bool.toNat x) (wadd WA yu.1 yu.1)
      let rest := b2aSenderGo WA (i + 1) (wadd WA z (t <<< i % 2 ^ WA)) xs v0s v1s
      (rest.1, yu.2 :: rest.2)
  | _, z, _, _, _ => (z, [])

/-- `bit_comp_as_ot_sender_single`. -/
def bit_comp_as_ot_sender_single (WA W x0 : Nat) (v0s v1s : List Nat) :
    Nat × List Nat :=
  b2aSenderGo WA 0 0 (bitsLE W x0) v0s v1s

/-- The loop body of `bit_comp_as_ot_receiver_single`. -/
def b2aReceiverGo (WA : Nat) :
    Nat → Nat → List Bool → List Nat → List Nat → Nat
  | i, z, x :: xs, v :: vs, u :: us =>
      let lp := WA - (i + 1)
      let y1 := bit_mul_as_ot_receiver WA lp x v u
      let t := wsub WA (Bool.toNat x) (wadd WA y1 y1)
      b2aReceiverGo WA (i + 1) (wadd WA z (t <<< i % 2 ^ WA)) xs vs us
  | _, z, _, _, _ => z

/-- `bit_comp_as_ot_receiver_single`. -/
def bit_comp_as_ot_receiver_single (WA W x1 : Nat) (vs us : List Nat) : Nat :=
  b2aReceiverGo WA 0 0 (bitsLE W x1) vs us

/-- Value of a little-endian bit list whose first bit sits at weight `2^i`. -/
def bitsVal (i : Nat) : List Bool → Nat
  | [] => 0
  | b :: bs => Bool.toNat b * 2 ^ i + bitsVal (i + 1) bs

theorem b2aSenderGo_us_length (WA : Nat) :
    ∀ (xs : List Bool) (v0s v1s : List Nat) (i z : Nat),
      (b2aSenderGo WA i z xs v0s v1s).2.length =
        min xs.length (min v0s.length v1s.length) := by
  intro xs
  induction xs with
  | nil => intro v0s v1s i z; simp [b2aSenderGo]
  | cons x xs ih =>
    intro v0s v1s i z
    match v0s, v1s with
    | [], _ => simp [b2aSenderGo]
    | _ :: _, [] => simp [b2aSenderGo]
    | v0 :: v0s, v1 :: v1s =>
      simp only [b2aSenderGo, List.length_cons, ih]
      omega

/-- Core accumulation invariant: running the sender and the receiver loops in
lockstep — the receiver holding the pointwise-selected ROT values and the
sender's `us` — sums (in `ZMod (2^WA)`) to the accumulators plus the value of
the XOR of the remaining bits, placed at weight `2^i`. -/
theorem b2a_go_sum (WA : Nat) :
    ∀ (xs0 xs1 : List Bool) (v0s v1s : List Nat) (i z0 z1 : Nat),
      xs0.length = xs1.length → xs1.length = v0s.length →
      v0s.length = v1s.length → i + xs0.length ≤ WA →
      (((b2aSenderGo WA i z0 xs0 v0s v1s).1 : ZMod (2 ^ WA)) +
        ((b2aReceiverGo WA i z1 xs1
            (zipWith3 (fun c a b => if c then b else a) xs1 v0s v1s)
            (b2aSenderGo WA i z0 xs0 v0s v1s).2 : Nat) : ZMod (2 ^ WA))) =
      ((z0 : ZMod (2 ^ WA)) + (z1 : ZMod (2 ^ WA)) +
        ((bitsVal i (List.zipWith xor xs0 xs1) : Nat) : ZMod (2 ^ WA))) := by
  intro xs0
  induction xs0 with
  | nil =>
    intro xs1 v0s v1s i z0 z1 h1 h2 h3 hi
    have hx1 : xs1 = [] := by
      simp only [List.length_nil] at h1
      exact List.length_eq_zero.mp h1.symm
    subst hx1
    simp [b2aSenderGo, b2aReceiverGo, zipWith3, bitsVal]
  | cons x0 xs0 ih =>
    intro xs1 v0s v1s i z0 z1 h1 h2 h3 hi
    match xs1, v0s, v1s with
    | [], _, _ => simp at h1
    | _ :: _, [], _ => simp at h2
    | _ :: _, _ :: _, [] => simp at h3
    | x1 :: xs1, v0 :: v0s, v1 :: v1s =>
      simp only [List.length_cons] at h1 h2 h3 hi
      simp only [b2aSenderGo, b2aReceiverGo, zipWith3, List.zipWith_cons_cons,
        bitsVal]
      rw [ih xs1 v0s v1s (i + 1) _ _ (by omega) (by omega) (by omega) (by omega)]
      have hstep := bit_mul_sum_mod WA (WA - (i + 1)) (by omega) x0 x1 v0 v1
      have hmul := Nat.ModEq.mul_left' (2 ^ (i + 1)) hstep
      have hWA : 2 ^ (i + 1) * 2 ^ (WA - (i + 1)) = 2 ^ WA := by
        rw [← pow_add]
        congr 1
        omega
      rw [hWA] at hmul
      have hcast := (ZMod.natCast_eq_natCast_iff _ _ _).mpr hmul
      push_cast at hcast
      have hxor : (Bool.toNat (xor x0 x1) : ZMod (2 ^ WA)) =
          (Bool.toNat x0 : ZMod (2 ^ WA)) + Bool.toNat x1 -
            2 * Bool.toNat (x0 && x1) := by
        cases x0 <;> cases x1 <;> simp <;> ring
      push_cast
      simp only [wadd_cast, Nat.shiftLeft_eq, natCast_mod_zmod, wsub_cast]
      push_cast
      simp only [wadd_cast, wsub_cast]
      linear_combination (-(2 : ZMod (2 ^ WA)) ^ i) * hxor - hcast

theorem bitsVal_append :
    ∀ (as bs : List Bool) (i : Nat),
      bitsVal i (as ++ bs) = bitsVal i as + bitsVal (i + as.length) bs := by
  intro as
  induction as with
  | nil => intro bs i; simp [bitsVal]
  | cons a t ih =>
    intro bs i
    have h : i + 1 + t.length = i + (t.length + 1) := by omega
    calc bitsVal i ((a :: t) ++ bs)
        = a.toNat * 2 ^ i + bitsVal (i + 1) (t ++ bs) := rfl
      _ = a.toNat * 2 ^ i +
            (bitsVal (i + 1) t + bitsVal (i + 1 + t.length) bs) := by rw [ih]
      _ = bitsVal i (a :: t) + bitsVal (i + (a :: t).length) bs := by
          simp only [bitsVal, List.length_cons]
          rw [h]
          ring

/-- The little-endian bit decomposition reassembles to the value modulo
`2 ^ W`: this is what the accumulated `z += t << i` loop reconstructs. -/
theorem bitsVal_bitsLE (y : Nat) : ∀ W, bitsVal 0 (bitsLE W y) = y % 2 ^ W := by
  intro W
  induction W with
  | zero => simp [bitsLE, bitsVal, Nat.mod_one]
  | succ W ih =>
    have hsplit : bitsLE (W + 1) y = bitsLE W y ++ [y.testBit W] := by
      simp [bitsLE, List.range_succ]
    have hlen : (bitsLE W y).length = W := by simp [bitsLE]
    rw [hsplit, bitsVal_append, ih, hlen]
    simp only [bitsVal, Nat.zero_add]
    have hbit : (y.testBit W).toNat = y / 2 ^ W % 2 := by
      rw [Nat.testBit_to_div_mod]
      rcases Nat.mod_two_eq_zero_or_one (y / 2 ^ W) with h | h <;> simp [h]
    rw [hbit]
    have hp : (2 : Nat) ^ (W + 1) = 2 ^ W * 2 := by ring
    rw [hp, Nat.mod_mul]
    ring

/-- Bitwise XOR of the bit decompositions is the bit decomposition of the
XOR. -/
theorem zipWith_xor_bitsLE (W a b : Nat) :
    List.zipWith xor (bitsLE W a) (bitsLE W b) = bitsLE W (a ^^^ b) := by
  apply List.ext_getElem
  · simp [bitsLE]
  · intro i h1 h2
    simp [bitsLE, Nat.testBit_xor]

/-- Single-number B2A correctness over arbitrary trimmed ROT vectors: when
the receiver holds the pointwise selection of the sender's two ROT vectors
(selection by the bits of `x1`) plus the sender's `us`, the two outputs sum
to `(x0 XOR x1) % 2 ^ W` in the output ring `2 ^ WA`. -/
theorem b2a_single_sum (WA W : Nat) (hW : W ≤ WA) (x0 x1 : Nat)
    (v0s v1s : List Nat) (h0 : v0s.length = W) (h1 : v1s.length = W) :
    (((bit_comp_as_ot_sender_single WA W x0 v0s v1s).1 : ZMod (2 ^ WA)) +
      ((bit_comp_as_ot_receiver_single WA W x1
          (zipWith3 (fun c a b => if c then b else a) (bitsLE W x1) v0s v1s)
          (bit_comp_as_ot_sender_single WA W x0 v0s v1s).2 : Nat) :
        ZMod (2 ^ WA))) =
    (((x0 ^^^ x1) % 2 ^ W : Nat) : ZMod (2 ^ WA)) := by
  unfold bit_comp_as_ot_sender_single bit_comp_as_ot_receiver_single
  rw [b2a_go_sum WA (bitsLE W x0) (bitsLE W x1) v0s v1s 0 0 0
    (by simp [bitsLE]) (by simp [bitsLE, h0]) (by omega)
    (by simp [bitsLE]; omega)]
  rw [zipWith_xor_bitsLE, bitsVal_bitsLE]
  simp

/-! ### COT to ROT conversion (`cot/rot.rs`, `block_crypto/mitccrh.rs`) -/

/-- `START_POINT` in `cot/rot.rs`: the four little-endian 32-bit lanes
`[0x1234, 0x2345, 0x3456, 0x4567]` assembled into one 128-bit block. -/
def START_POINT : Nat :=
  0x1234 + 0x2345 * 2 ^ 32 + 0x3456 * 2 ^ 64 + 0x4567 * 2 ^ 96

/-- `MiTCCR::renew_ks`: the AES key with counter `gid` is
`start_point XOR (gid placed in the high 64-bit lane)` —
`set_i64_m128i(gid as i64, 0)` puts `gid` in the high lane — with `gid` a
wrapping `u64`. -/
def mitccrKey (start gid : Nat) : Nat := start ^^^ (gid % 2 ^ 64) <<< 64

/-- `MiTCCR::hash` on one block is Davies-Meyer: the output overwrites the
input with `x XOR AES_key(x)` (the key schedule plus `para_enc` is the
abstract keyed permutation `aes`). -/
def mitccr_dm (aes : Nat → Nat → Nat) (key x : Nat) : Nat := x ^^^ aes key x

/-- `cot_to_rot_sender_side`'s loop over `q.chunks_exact(8)` with fuel `nc`
(the number of chunks): the MiTCCR batch refreshes its 8 keys per chunk
(`gid` advances by 8), the pad holds `[q, q.add_gf(delta)]` per COT (H = 2,
so pad entries `2k` and `2k+1` are both hashed under key `gid + k`), and
both hash outputs are trimmed to the output ring by `from_rot`
(low `WA` bits). -/
def rotSenderGo (aes : Nat → Nat → Nat) (WA delta : Nat) :
    Nat → Nat → List Nat → List Nat × List Nat
  | 0, _, _ => ([], [])
  | nc + 1, gid, qs =>
      let v0 := (List.range 8).map
        (fun k => mitccr_dm aes (mitccrKey START_POINT (gid + k))
          (qs.getD k 0) % 2 ^ WA)
      let v1 := (List.range 8).map
        (fun k => mitccr_dm aes (mitccrKey START_POINT (gid + k))
          (qs.getD k 0 ^^^ delta) % 2 ^ WA)
      let rest := rotSenderGo aes WA delta nc (gid + 8) (qs.drop 8)
      (v0 ++ rest.1, v1 ++ rest.2)

/-- `cot_to_rot_sender_side`: process `qs` (length asserted divisible by 8)
in chunks of 8 starting from `gid = 0`. -/
def cot_to_rot_sender_side (aes : Nat → Nat → Nat) (WA : Nat)
    (qs : List Nat) (delta : Nat) : List Nat × List Nat :=
  rotSenderGo aes WA delta (qs.length / 8) 0 qs

/-- `cot_to_rot_receiver_side`'s loop over `t.chunks(8)` (H = 1: pad entry
`k` is hashed under key `gid + k`, keys refreshed per chunk). -/
def rotReceiverGo (aes : Nat → Nat → Nat) (WA : Nat) :
    Nat → Nat → List Nat → List Nat
  | 0, _, _ => []
  | nc + 1, gid, ts =>
      (List.range 8).map
        (fun k => mitccr_dm aes (mitccrKey START_POINT (gid + k))
          (ts.getD k 0) % 2 ^ WA) ++
        rotReceiverGo aes WA nc (gid + 8) (ts.drop 8)

/-- `cot_to_rot_receiver_side`: process `ts` (length asserted divisible by
8) in chunks of 8 starting from `gid = 0`. -/
def cot_to_rot_receiver_side (aes : Nat → Nat → Nat) (WA : Nat)
    (ts : List Nat) : List Nat :=
  rotReceiverGo aes WA (ts.length / 8) 0 ts

theorem range_map_getD (f : Nat → α) (d : α) (n i : Nat) (h : i < n) :
    ((List.range n).map f).getD i d = f i := by
  rw [List.getD_eq_getElem _ _ (by simpa using h)]
  simp

theorem getD_drop (l : List α) (d : α) (n i : Nat) :
    (l.drop n).getD i d = l.getD (n + i) d := by
  simp [List.getD_eq_getElem?_getD, List.getElem?_drop]

theorem rotSenderGo_fst_length (aes : Nat → Nat → Nat) (WA delta : Nat) :
    ∀ (nc gid : Nat) (qs : List Nat),
      (rotSenderGo aes WA delta nc gid qs).1.length = 8 * nc := by
  intro nc
  induction nc with
  | zero => intro gid qs; simp [rotSenderGo]
  | succ nc ih =>
    intro gid qs
    simp only [rotSenderGo, List.length_append, List.length_map,
      List.length_range, ih]
    omega

theorem rotSenderGo_snd_length (aes : Nat → Nat → Nat) (WA delta : Nat) :
    ∀ (nc gid : Nat) (qs : List Nat),
      (rotSenderGo aes WA delta nc gid qs).2.length = 8 * nc := by
  intro nc
  induction nc with
  | zero => intro gid qs; simp [rotSenderGo]
  | succ nc ih =>
    intro gid qs
    simp only [rotSenderGo, List.length_append, List.length_map,
      List.length_range, ih]
    omega

theorem rotReceiverGo_length (aes : Nat → Nat → Nat) (WA : Nat) :
    ∀ (nc gid : Nat) (ts : List Nat),
      (rotReceiverGo aes WA nc gid ts).length = 8 * nc := by
  intro nc
  induction nc with
  | zero => intro gid ts; simp [rotReceiverGo]
  | succ nc ih =>
    intro gid ts
    simp only [rotReceiverGo, List.length_append, List.length_map,
      List.length_range, ih]
    omega

/-- The sender ROT conversion is pointwise: entry `i` hashes `qs[i]` under
the key with counter `gid + i`. -/
theorem rotSenderGo_fst_getD (aes : Nat → Nat → Nat) (WA delta : Nat) :
    ∀ (nc gid i : Nat) (qs : List Nat), i < 8 * nc →
      (rotSenderGo aes WA delta nc gid qs).1.getD i 0 =
        mitccr_dm aes (mitccrKey START_POINT (gid + i))
          (qs.getD i 0) % 2 ^ WA := by
  intro nc
  induction nc with
  | zero => intro gid i qs h; omega
  | succ nc ih =>
    intro gid i qs h
    simp only [rotSenderGo]
    by_cases hi : i < 8
    · rw [List.getD_append _ _ _ _ (by simpa using hi)]
      rw [range_map_getD _ _ _ _ hi]
    · rw [List.getD_append_right _ _ _ _ (by simpa using hi)]
      simp only [List.length_map, List.length_range]
      rw [ih (gid + 8) (i - 8) (qs.drop 8) (by omega)]
      rw [getD_drop]
      have h1 : gid + 8 + (i - 8) = gid + i := by omega
      have h2 : 8 + (i - 8) = i := by omega
      rw [h1, h2]

/-- Same for the second sender output, on `qs[i] XOR delta`. -/
theorem rotSenderGo_snd_getD (aes : Nat → Nat → Nat) (WA delta : Nat) :
    ∀ (nc gid i : Nat) (qs : List Nat), i < 8 * nc →
      (rotSenderGo aes WA delta nc gid qs).2.getD i 0 =
        mitccr_dm aes (mitccrKey START_POINT (gid + i))
          (qs.getD i 0 ^^^ delta) % 2 ^ WA := by
  intro nc
  induction nc with
  | zero => intro gid i qs h; omega
  | succ nc ih =>
    intro gid i qs h
    simp only [rotSenderGo]
    by_cases hi : i < 8
    · rw [List.getD_append _ _ _ _ (by simpa using hi)]
      rw [range_map_getD _ _ _ _ hi]
    · rw [List.getD_append_right _ _ _ _ (by simpa using hi)]
      simp only [List.length_map, List.length_range]
      rw [ih (gid + 8) (i - 8) (qs.drop 8) (by omega)]
      rw [getD_drop]
      have h1 : gid + 8 + (i - 8) = gid + i := by omega
      have h2 : 8 + (i - 8) = i := by omega
      rw [h1, h2]

/-- The receiver ROT conversion is pointwise with the same key schedule. -/
theorem rotReceiverGo_getD (aes : Nat → Nat → Nat) (WA : Nat) :
    ∀ (nc gid i : Nat) (ts : List Nat), i < 8 * nc →
      (rotReceiverGo aes WA nc gid ts).getD i 0 =
        mitccr_dm aes (mitccrKey START_POINT (gid + i))
          (ts.getD i 0) % 2 ^ WA := by
  intro nc
  induction nc with
  | zero => intro gid i ts h; omega
  | succ nc ih =>
    intro gid i ts h
    simp only [rotReceiverGo]
    by_cases hi : i < 8
    · rw [List.getD_append _ _ _ _ (by simpa using hi)]
      rw [range_map_getD _ _ _ _ hi]
    · rw [List.getD_append_right _ _ _ _ (by simpa using hi)]
      simp only [List.length_map, List.length_range]
      rw [ih (gid + 8) (i - 8) (ts.drop 8) (by omega)]
      rw [getD_drop]
      have h1 : gid + 8 + (i - 8) = gid + i := by omega
      have h2 : 8 + (i - 8) = i := by omega
      rw [h1, h2]

/-- `COTGen::sample_cots`'s `ts` construction specialised to the B2A choice
bits: `ts[i] = qs[i].add_gf(delta)` when choice bit `i` (the bits of the
`x1` words, little-endian and concatenated) is set, else `qs[i]`. -/
def honest_ts (W delta : Nat) (x1s qs : List Nat) : List Nat :=
  List.zipWith (fun q c => if c then q ^^^ delta else q) qs
    ((x1s.map (bitsLE W)).flatten)

/-- `bit_comp_as_ot_sender_batch`'s fold: one number and one `W`-chunk of
each trimmed ROT vector per step, collecting the `y0` outputs and
concatenating the `us` chunks (`us_dest.chunks_mut`). -/
def b2aSenderBatchGo (WA W : Nat) :
    List Nat → List Nat → List Nat → List Nat × List Nat
  | x :: xs, v0s, v1s =>
      let s := bit_comp_as_ot_sender_single WA W x (v0s.take W) (v1s.take W)
      let rest := b2aSenderBatchGo WA W xs (v0s.drop W) (v1s.drop W)
      (s.1 :: rest.1, s.2 ++ rest.2)
  | [], _, _ => ([], [])

/-- `bit_comp_as_ot_sender_batch`: convert the COTs to trimmed ROTs, then
fold over the inputs with `W`-sized ROT chunks. -/
def bit_comp_as_ot_sender_batch (aes : Nat → Nat → Nat) (WA W : Nat)
    (inputs0 : List Nat) (delta : Nat) (qs : List Nat) :
    List Nat × List Nat :=
  let rot := cot_to_rot_sender_side aes WA qs delta
  b2aSenderBatchGo WA W inputs0 rot.1 rot.2

/-- `bit_comp_as_ot_receiver_batch`'s fold: one number and one `W`-chunk of
the selected ROT vector and of `us` per step. -/
def b2aReceiverBatchGo (WA W : Nat) :
    List Nat → List Nat → List Nat → List Nat
  | x :: xs, vs, us =>
      bit_comp_as_ot_receiver_single WA W x (vs.take W) (us.take W) ::
        b2aReceiverBatchGo WA W xs (vs.drop W) (us.drop W)
  | [], _, _ => []

/-- `bit_comp_as_ot_receiver_batch`: convert the selected COTs to trimmed
ROTs, then fold over the inputs. -/
def bit_comp_as_ot_receiver_batch (aes : Nat → Nat → Nat) (WA W : Nat)
    (inputs1 : List Nat) (ts : List Nat) (us : List Nat) : List Nat :=
  b2aReceiverBatchGo WA W inputs1 (cot_to_rot_receiver_side aes WA ts) us

theorem take_append_len (l1 l2 : List α) (n : Nat) (h : l1.length = n) :
    (l1 ++ l2).take n = l1 := by
  subst h
  induction l1 with
  | nil => simp
  | cons a t ih => simpa using ih

theorem drop_append_len (l1 l2 : List α) (i : Nat) :
    (l1 ++ l2).drop (l1.length + i) = l2.drop i := by
  induction l1 with
  | nil => simp
  | cons a t ih =>
    have h : (a :: t).length + i = t.length + i + 1 := by
      rw [List.length_cons]
      omega
    rw [h, List.cons_append, List.drop_succ_cons]
    exact ih

theorem b2aSenderBatchGo_fst_getD (WA W : Nat) :
    ∀ (xs v0s v1s : List Nat) (k : Nat), k < xs.length →
      (b2aSenderBatchGo WA W xs v0s v1s).1.getD k 0 =
        (bit_comp_as_ot_sender_single WA W (xs.getD k 0)
          ((v0s.drop (k * W)).take W) ((v1s.drop (k * W)).take W)).1 := by
  intro xs
  induction xs with
  | nil => intro v0s v1s k hk; simp at hk
  | cons x t ih =>
    intro v0s v1s k hk
    match k with
    | 0 => simp [b2aSenderBatchGo]
    | k + 1 =>
      simp only [b2aSenderBatchGo, List.getD_cons_succ]
      rw [ih (v0s.drop W) (v1s.drop W) k (by simpa using hk)]
      rw [List.drop_drop, List.drop_drop]
      have h : W + k * W = (k + 1) * W := by ring
      rw [h]

theorem single_us_length (WA W x0 : Nat) (v0s v1s : List Nat)
    (h0 : W ≤ v0s.length) (h1 : W ≤ v1s.length) :
    (bit_comp_as_ot_sender_single WA W x0 (v0s.take W) (v1s.take W)).2.length
      = W := by
  unfold bit_comp_as_ot_sender_single
  rw [b2aSenderGo_us_length]
  simp [bitsLE]
  omega

theorem b2aSenderBatchGo_snd_length (WA W : Nat) :
    ∀ (xs v0s v1s : List Nat),
      xs.length * W ≤ v0s.length → xs.length * W ≤ v1s.length →
      (b2aSenderBatchGo WA W xs v0s v1s).2.length = xs.length * W := by
  intro xs
  induction xs with
  | nil => intro v0s v1s _ _; simp [b2aSenderBatchGo]
  | cons x t ih =>
    intro v0s v1s h0 h1
    simp only [List.length_cons, Nat.succ_mul] at h0 h1 ⊢
    simp only [b2aSenderBatchGo, List.length_append]
    rw [single_us_length WA W x v0s v1s (by omega) (by omega)]
    rw [ih (v0s.drop W) (v1s.drop W) (by simp; omega) (by simp; omega)]
    omega

theorem b2aSenderBatchGo_snd_chunk (WA W : Nat) :
    ∀ (xs v0s v1s : List Nat) (k : Nat), k < xs.length →
      xs.length * W ≤ v0s.length → xs.length * W ≤ v1s.length →
      ((b2aSenderBatchGo WA W xs v0s v1s).2.drop (k * W)).take W =
        (bit_comp_as_ot_sender_single WA W (xs.getD k 0)
          ((v0s.drop (k * W)).take W) ((v1s.drop (k * W)).take W)).2 := by
  intro xs
  induction xs with
  | nil => intro v0s v1s k hk _ _; simp at hk
  | cons x t ih =>
    intro v0s v1s k hk h0 h1
    simp only [List.length_cons, Nat.succ_mul] at h0 h1
    match k with
    | 0 =>
      simp only [b2aSenderBatchGo, Nat.zero_mul, List.drop_zero,
        List.getD_cons_zero]
      have hsl := single_us_length WA W x v0s v1s (by omega) (by omega)
      rw [take_append_len _ _ _ hsl]
    | k + 1 =>
      simp only [b2aSenderBatchGo, List.getD_cons_succ]
      have hsl := single_us_length WA W x v0s v1s (by omega) (by omega)
      have hsplit : (k + 1) * W = (bit_comp_as_ot_sender_single WA W x
          (v0s.take W) (v1s.take W)).2.length + k * W := by
        rw [hsl]; ring
      nth_rewrite 1 [hsplit]
      rw [drop_append_len]
      rw [ih (v0s.drop W) (v1s.drop W) k (by simpa using hk)
        (by simp; omega) (by simp; omega)]
      rw [List.drop_drop, List.drop_drop]
      have h : W + k * W = (k + 1) * W := by ring
      rw [h]

theorem b2aReceiverBatchGo_getD (WA W : Nat) :
    ∀ (xs vs us : List Nat) (k : Nat), k < xs.length →
      (b2aReceiverBatchGo WA W xs vs us).getD k 0 =
        bit_comp_as_ot_receiver_single WA W (xs.getD k 0)
          ((vs.drop (k * W)).take W) ((us.drop (k * W)).take W) := by
  intro xs
  induction xs with
  | nil => intro vs us k hk; simp at hk
  | cons x t ih =>
    intro vs us k hk
    match k with
    | 0 => simp [b2aReceiverBatchGo]
    | k + 1 =>
      simp only [b2aReceiverBatchGo, List.getD_cons_succ]
      rw [ih (vs.drop W) (us.drop W) k (by simpa using hk)]
      rw [List.drop_drop, List.drop_drop]
      have h : W + k * W = (k + 1) * W := by ring
      rw [h]

/-- `getD` of the concatenation of uniform-length bit blocks: global index
`k * W + j` reads bit `j` of block `k`. -/
theorem flatten_bitsLE_getD (W : Nat) :
    ∀ (xs : List Nat) (k j : Nat), k < xs.length → j < W →
      ((xs.map (bitsLE W)).flatten).getD (k * W + j) false =
        (xs.getD k 0).testBit j := by
  intro xs
  induction xs with
  | nil => intro k j hk _; simp at hk
  | cons x t ih =>
    intro k j hk hj
    simp only [List.map_cons, List.flatten_cons]
    match k with
    | 0 =>
      rw [Nat.zero_mul, Nat.zero_add,
        List.getD_append _ _ _ _ (by simp [bitsLE, hj]),
        List.getD_cons_zero]
      unfold bitsLE
      exact range_map_getD _ _ _ _ hj
    | k + 1 =>
      have hlen : (bitsLE W x).length = W := by simp [bitsLE]
      have hge : (bitsLE W x).length ≤ (k + 1) * W + j := by
        rw [hlen, Nat.succ_mul]; omega
      rw [List.getD_append_right _ _ _ _ hge, List.getD_cons_succ]
      have harith : (k + 1) * W + j - (bitsLE W x).length = k * W + j := by
        rw [hlen, Nat.succ_mul]; omega
      rw [harith]
      exact ih k j (by simpa using hk) hj

theorem ext_getD_len (l1 l2 : List α) (d : α) (hlen : l1.length = l2.length)
    (h : ∀ j, j < l1.length → l1.getD j d = l2.getD j d) : l1 = l2 := by
  apply List.ext_getElem hlen
  intro j hj1 hj2
  have hh := h j hj1
  rwa [List.getD_eq_getElem _ _ hj1, List.getD_eq_getElem _ _ hj2] at hh

theorem getD_take (l : List α) (d : α) (n i : Nat) (h : i < n) :
    (l.take n).getD i d = l.getD i d := by
  simp [List.getD_eq_getElem?_getD, List.getElem?_take, h]

/-- C2: B2A round trip.  For a vector of `x0s.length` words of input width
`W` (divisible by 8, at most the output width `WA`), shared bitwise as
`x = x0 XOR x1`, and honest COTs `(qs, honest_ts)` of length `N * W` whose
choice bits are the bits of the `x1` words, the outputs `y0s` (with `us`)
of `bit_comp_as_ot_sender_batch` and `y1s` of
`bit_comp_as_ot_receiver_batch` satisfy
`(y0s[k] + y1s[k]) mod 2^W = x0s[k] XOR x1s[k]` for every index `k`, the
sum computed in the output ring `2^WA`. -/
theorem c2_b2a_round_trip (aes : Nat → Nat → Nat) (WA W k : Nat)
    (x0s x1s qs : List Nat) (delta : Nat)
    (h8 : 8 ∣ W) (hW : W ≤ WA)
    (hlen : x1s.length = x0s.length)
    (hq : qs.length = x0s.length * W)
    (hk : k < x0s.length)
    (hb0 : x0s.getD k 0 < 2 ^ W) (hb1 : x1s.getD k 0 < 2 ^ W) :
    wadd WA
        ((bit_comp_as_ot_sender_batch aes WA W x0s delta qs).1.getD k 0)
        ((bit_comp_as_ot_receiver_batch aes WA W x1s
            (honest_ts W delta x1s qs)
            (bit_comp_as_ot_sender_batch aes WA W x0s delta qs).2).getD k 0) %
      2 ^ W = x0s.getD k 0 ^^^ x1s.getD k 0 := by
  obtain ⟨m, hm⟩ := h8
  have hdiv : 8 ∣ qs.length := by
    rw [hq, hm]
    exact ⟨x0s.length * m, by ring⟩
  have hdm : 8 * (qs.length / 8) = qs.length := Nat.mul_div_cancel' hdiv
  have hv0len : (cot_to_rot_sender_side aes WA qs delta).1.length =
      qs.length := by
    unfold cot_to_rot_sender_side
    rw [rotSenderGo_fst_length]
    exact hdm
  have hv1len : (cot_to_rot_sender_side aes WA qs delta).2.length =
      qs.length := by
    unfold cot_to_rot_sender_side
    rw [rotSenderGo_snd_length]
    exact hdm
  have htslen : (honest_ts W delta x1s qs).length = qs.length := by
    unfold honest_ts
    rw [List.length_zipWith, bits_join_length, hlen, ← hq]
    exact Nat.min_self _
  have hvslen :
      (cot_to_rot_receiver_side aes WA (honest_ts W delta x1s qs)).length =
      qs.length := by
    unfold cot_to_rot_receiver_side
    rw [rotReceiverGo_length, htslen]
    exact hdm
  have hkW : k * W + W ≤ x0s.length * W := by
    have h1 : k + 1 ≤ x0s.length := hk
    calc k * W + W = (k + 1) * W := by ring
      _ ≤ x0s.length * W := Nat.mul_le_mul_right W h1
  simp only [bit_comp_as_ot_sender_batch, bit_comp_as_ot_receiver_batch]
  rw [b2aSenderBatchGo_fst_getD WA W x0s _ _ k hk]
  rw [b2aReceiverBatchGo_getD WA W x1s _ _ k (by rw [hlen]; exact hk)]
  rw [b2aSenderBatchGo_snd_chunk WA W x0s _ _ k hk
    (by simp [hv0len, hq]) (by simp [hv1len, hq])]
  have hvchunk :
      (((cot_to_rot_receiver_side aes WA
          (honest_ts W delta x1s qs)).drop (k * W)).take W) =
      zipWith3 (fun c a b => if c then b else a)
        (bitsLE W (x1s.getD k 0))
        (((cot_to_rot_sender_side aes WA qs delta).1.drop (k * W)).take W)
        (((cot_to_rot_sender_side aes WA qs delta).2.drop (k * W)).take W) := by
    apply ext_getD_len _ _ 0
    · rw [List.length_take, List.length_drop, hvslen, hq]
      rw [zipWith3_length]
      simp only [bitsLE, List.length_map, List.length_range,
        List.length_take, List.length_drop, hv0len, hv1len, hq]
      omega
    · intro j hj
      have hjW : j < W := by
        rw [List.length_take, List.length_drop, hvslen, hq] at hj
        omega
      have hglobal : k * W + j < 8 * (qs.length / 8) := by
        rw [hdm, hq]
        omega
      have hglobal' : k * W + j <
          8 * ((honest_ts W delta x1s qs).length / 8) := by
        rw [htslen]
        exact hglobal
      rw [getD_take _ _ _ _ hjW, getD_drop]
      unfold cot_to_rot_receiver_side
      rw [rotReceiverGo_getD aes WA _ _ _ _ hglobal']
      have hts : (honest_ts W delta x1s qs).getD (k * W + j) 0 =
          (if (x1s.getD k 0).testBit j then qs.getD (k * W + j) 0 ^^^ delta
            else qs.getD (k * W + j) 0) := by
        unfold honest_ts
        rw [zipWith_getD _ 0 false 0 _ _ _ (by rw [hq]; omega)
          (by rw [bits_join_length, hlen]; omega)]
        rw [flatten_bitsLE_getD W x1s k j (by rw [hlen]; exact hk) hjW]
      rw [hts]
      rw [zipWith3_getD _ false 0 0 0 _ _ _ j
        (by simp [bitsLE]; exact hjW)
        (by rw [List.length_take, List.length_drop, hv0len, hq]; omega)
        (by rw [List.length_take, List.length_drop, hv1len, hq]; omega)]
      have hbitsD : (bitsLE W (x1s.getD k 0)).getD j false =
          (x1s.getD k 0).testBit j := by
        unfold bitsLE
        exact range_map_getD _ _ _ _ hjW
      rw [hbitsD]
      rw [getD_take _ _ _ _ hjW, getD_drop, getD_take _ _ _ _ hjW, getD_drop]
      unfold cot_to_rot_sender_side
      rw [rotSenderGo_fst_getD aes WA delta _ _ _ _ hglobal]
      rw [rotSenderGo_snd_getD aes WA delta _ _ _ _ hglobal]
      by_cases hbit : (x1s.getD k 0).testBit j
      · rw [if_pos hbit, if_pos hbit]
      · rw [if_neg hbit, if_neg hbit]
  rw [hvchunk]
  have hc0 :
      (((cot_to_rot_sender_side aes WA qs delta).1.drop (k * W)).take
        W).length = W := by
    rw [List.length_take, List.length_drop, hv0len, hq]
    omega
  have hc1 :
      (((cot_to_rot_sender_side aes WA qs delta).2.drop (k * W)).take
        W).length = W := by
    rw [List.length_take, List.length_drop, hv1len, hq]
    omega
  have hsum := b2a_single_sum WA W hW (x0s.getD k 0) (x1s.getD k 0) _ _ hc0 hc1
  have hxlt : x0s.getD k 0 ^^^ x1s.getD k 0 < 2 ^ W :=
    Nat.xor_lt_two_pow hb0 hb1
  have heq : wadd WA
      (bit_comp_as_ot_sender_single WA W (x0s.getD k 0)
        (((cot_to_rot_sender_side aes WA qs delta).1.drop (k * W)).take W)
        (((cot_to_rot_sender_side aes WA qs delta).2.drop (k * W)).take W)).1
      (bit_comp_as_ot_receiver_single WA W (x1s.getD k 0)
        (zipWith3 (fun c a b => if c then b else a)
          (bitsLE W (x1s.getD k 0))
          (((cot_to_rot_sender_side aes WA qs delta).1.drop (k * W)).take W)
          (((cot_to_rot_sender_side aes WA qs delta).2.drop (k * W)).take W))
        (bit_comp_as_ot_sender_single WA W (x0s.getD k 0)
          (((cot_to_rot_sender_side aes WA qs delta).1.drop (k * W)).take W)
          (((cot_to_rot_sender_side aes WA qs delta).2.drop
            (k * W)).take W)).2) =
      (x0s.getD k 0 ^^^ x1s.getD k 0) % 2 ^ W := by
    apply eq_of_zmod_eq (wadd_lt _ _ _)
      (lt_of_lt_of_le (Nat.mod_lt _ (Nat.pos_pow_of_pos _ (by norm_num)))
        (Nat.pow_le_pow_right (by norm_num) hW))
    rw [wadd_cast]
    exact hsum
  rw [heq, Nat.mod_mod_of_dvd _ dvd_rfl]
  exact Nat.mod_eq_of_lt hxlt

theorem c2_b2a_round_trip_witness :
    wadd 8
        ((bit_comp_as_ot_sender_batch (fun _ _ => 0) 8 8 [3] 7
          (List.replicate 8 0)).1.getD 0 0)
        ((bit_comp_as_ot_receiver_batch (fun _ _ => 0) 8 8 [5]
            (honest_ts 8 7 [5] (List.replicate 8 0))
            (bit_comp_as_ot_sender_batch (fun _ _ => 0) 8 8 [3] 7
              (List.replicate 8 0)).2).getD 0 0) %
      2 ^ 8 = [3].getD 0 0 ^^^ [5].getD 0 0 :=
  c2_b2a_round_trip (fun _ _ => 0) 8 8 0 [3] [5] (List.replicate 8 0) 7
    (by decide) (by decide) rfl (by decide) (by decide) (by decide) (by decide)
